import Mathlib

/-!
# ush: a verification development of `src/main.c`

The interpreter reads a line from standard input, splits it into tokens, and
either runs a builtin (`cd`, `help`, `exit`) or launches an external program.

Modelling conventions.

* A character is a byte value, a `Nat`; a string is the `List Nat` of the
  characters that precede its terminating NUL.
* Heap memory is a list of cells; a cell is `none` while it is indeterminate
  (never written since `malloc`/`realloc` handed it out) and `some v` after a
  write.  A write outside the block is the outcome `Outcome.fault`.
* `int` variables are naturals; an increment that would leave the `int` range
  is undefined behaviour in C and is the outcome `Outcome.fault` too.
* Everything the operating system decides (whether an allocation is granted,
  whether `chdir`, `fork`, `execvp` succeed, what `waitpid` reports) is read
  from an `OS` record, so that the functions are deterministic given it.
* Observable effects are appended, in order, to `World.trace`.  `free` has
  no observable effect and is left out; output is recorded in program order.
* A launched program is taken not to read the interpreter's standard input.

The theorems state what they need of the environment as hypotheses: that
allocations are granted (`∀ n, os.alloc n = true`), that a length keeps the
`int` counters in range (`... + USH_RL_BUFSIZE ≤ INT_MAX`), that launched
programs end (`OS.programsEnd`).  Without them the code exits with
`EXIT_FAILURE`, has undefined behaviour, or blocks, as the definitions show.
-/

namespace Ush

/-! ## Constants -/

def EXIT_SUCCESS : Nat := 0

def EXIT_FAILURE : Nat := 1

def INT_MAX : Nat := 2147483647

def USH_RL_BUFSIZE : Nat := 1024

def USH_TOK_BUFSIZE : Nat := 64

/-- Size in bytes of a `char` (always 1 in C). -/
def SIZEOF_CHAR : Nat := 1

/-- Size in bytes of a `char *` (8 on the LP64 platforms the program targets). -/
def SIZEOF_PTR : Nat := 8

/-- The byte values of the characters of a string literal. -/
def bytes (s : String) : List Nat := s.toList.map Char.toNat

/-! ## The environment -/

/-- What `waitpid (pid, &status, WUNTRACED)` can report about a child. -/
inductive WaitStatus where
  | exited (code : Nat)
  | signaled (sig : Nat)
  | stopped (sig : Nat)
  deriving DecidableEq, Repr

/-- An observable effect of the interpreter process. -/
inductive Event where
  /-- Text written to standard output. -/
  | stdout (text : List Nat)
  /-- Text written to standard error with `fprintf (stderr, ...)`. -/
  | stderr (text : List Nat)
  /-- The call `perror (tag)` in the interpreter: an OS-level diagnostic on standard error. -/
  | perror (tag : List Nat)
  /-- The call `chdir (path)`, with whether the OS accepted it. -/
  | chdir (path : List Nat) (ok : Bool)
  /-- The call `fork ()` failed: no child exists. -/
  | forkFailed
  /-- The call `fork ()` created a child, which called `execvp (file, argv)`;
  `ok` tells whether the process image was replaced.  When it was not, the
  child called `perror` and `exit (EXIT_FAILURE)`. -/
  | child (file : List Nat) (argv : List (List Nat)) (ok : Bool)
  /-- A call of `waitpid` returned with this status. -/
  | waitpid (st : WaitStatus)
  deriving DecidableEq, Repr

/-- The state of the interpreter process that outlives a function call. -/
structure World where
  /-- The characters not yet read from standard input. -/
  stdin : List Nat
  /-- The current working directory. -/
  cwd : List Nat
  /-- The effects so far, oldest first. -/
  trace : List Event
  deriving DecidableEq, Repr

/-- The decisions of the operating system. -/
structure OS where
  /-- Whether `malloc`/`realloc` grants a block of this many bytes. -/
  alloc : Nat → Bool
  /-- The working directory after `chdir (path)` from `cwd`, `none` when the
  OS rejects the change (it then leaves the working directory alone). -/
  chdir : (cwd : List Nat) → (path : List Nat) → Option (List Nat)
  /-- Whether `fork ()` succeeds in this state. -/
  fork : World → Bool
  /-- The fate of a child that calls `execvp (file, argv)`: `none` when the
  call fails, otherwise the statuses that successive `waitpid` calls of the
  parent report about the running program. -/
  execvp : (file : List Nat) → (argv : List (List Nat)) → Option (List WaitStatus)

/-- How a call ends. -/
inductive Outcome (α : Type) where
  /-- The function returns a value to its caller. -/
  | returned (a : α) (w : World)
  /-- The function calls `exit (code)`: the whole process terminates. -/
  | exited (code : Nat) (w : World)
  /-- Undefined behaviour: a write outside a block, a read of an indeterminate
  cell, or signed overflow. -/
  | fault
  /-- The call blocks for ever (in `waitpid`). -/
  | hangs
  deriving DecidableEq, Repr

def World.emit (w : World) (e : Event) : World :=
  { w with trace := w.trace ++ [e] }

/-! ## Memory blocks -/

/-- The assignment `buf[i] = v`. -/
def store {α : Type} (buf : List (Option α)) (i : Nat) (v : α) : Option (List (Option α)) :=
  if i < buf.length then some (buf.set i (some v)) else none

/-- The call `malloc (n * size)`: a block of `n` indeterminate cells. -/
def malloc {α : Type} (os : OS) (n size : Nat) : Option (List (Option α)) :=
  if os.alloc (n * size) then some (List.replicate n none) else none

/-- The call `realloc (buf, n * size)`: the old contents, cut or extended with
indeterminate cells to `n` cells. -/
def realloc {α : Type} (os : OS) (buf : List (Option α)) (n size : Nat) :
    Option (List (Option α)) :=
  if os.alloc (n * size) then some (buf.take n ++ List.replicate (n - buf.length) none) else none

/-- The string a `char *` to the start of the block denotes: the characters
before the first NUL. -/
def cstr : List (Option Nat) → Option (List Nat)
  | [] => none
  | none :: _ => none
  | some c :: rest => if c = 0 then some [] else (cstr rest).map (c :: ·)

/-- The argument list a `char **` to the start of the block denotes: the
strings before the first null pointer. -/
def argv : List (Option (Option (List Nat))) → Option (List (List Nat))
  | [] => none
  | none :: _ => none
  | some none :: _ => some []
  | some (some t) :: rest => (argv rest).map (t :: ·)

/-! ## `ush_read_line` -/

def allocation_error : List Nat := bytes "ush: allocation error\n"

/-- The local variables of `ush_read_line`. -/
structure RlState where
  bufsize : Nat
  position : Nat
  buffer : List (Option Nat)
  deriving DecidableEq, Repr

/-- What one turn of a loop does. -/
inductive Step (σ ρ : Type) where
  /-- The loop goes round again with these locals. -/
  | next (s : σ)
  /-- The function returns. -/
  | done (r : ρ)
  /-- The function calls `exit (code)` after emitting the events. -/
  | quit (code : Nat) (events : List Event)
  /-- Undefined behaviour. -/
  | fault
  deriving DecidableEq, Repr

/-- One turn of the `while (1)` loop of `ush_read_line`, given what `getchar`
returned: `none` for `EOF`. -/
def rl_body (os : OS) (c : Option Nat) (s : RlState) : Step RlState (List (Option Nat)) :=
  match c with
  | none => .quit EXIT_SUCCESS []
  | some c =>
    if c = 10 then
      match store s.buffer s.position 0 with
      | none => .fault
      | some b => .done b
    else
      match store s.buffer s.position c with
      | none => .fault
      | some b =>
        if INT_MAX ≤ s.position then .fault
        else
          let position := s.position + 1
          if s.bufsize ≤ position then
            if INT_MAX < s.bufsize + USH_RL_BUFSIZE then .fault
            else
              let bufsize := s.bufsize + USH_RL_BUFSIZE
              match realloc os b bufsize SIZEOF_CHAR with
              | none => .quit EXIT_FAILURE [.stderr allocation_error]
              | some b2 => .next ⟨bufsize, position, b2⟩
          else .next ⟨s.bufsize, position, b⟩

/-- The `while (1)` loop of `ush_read_line` over the pending input. -/
def rl_loop (os : OS) (w : World) : List Nat → RlState → Outcome (List (Option Nat))
  | [], s =>
    match rl_body os none s with
    | .done b => .returned b { w with stdin := [] }
    | .quit code ev => .exited code { w with stdin := [], trace := w.trace ++ ev }
    | _ => .fault
  | c :: rest, s =>
    match rl_body os (some c) s with
    | .next s2 => rl_loop os w rest s2
    | .done b => .returned b { w with stdin := rest }
    | .quit code ev => .exited code { w with stdin := rest, trace := w.trace ++ ev }
    | .fault => .fault

/-- The locals of `ush_read_line` on entry to its loop. -/
def rl_init (buffer : List (Option Nat)) : RlState :=
  ⟨USH_RL_BUFSIZE, 0, buffer⟩

/-- `char *ush_read_line (void)`: the returned block. -/
def ush_read_line (os : OS) (w : World) : Outcome (List (Option Nat)) :=
  match malloc os USH_RL_BUFSIZE SIZEOF_CHAR with
  | none => .exited EXIT_FAILURE (w.emit (.stderr allocation_error))
  | some buffer => rl_loop os w w.stdin (rl_init buffer)

/-! ## `ush_split_line` -/

def USH_TOK_DELIM : List Nat := bytes " \t\r\n\x07"

/-- One call of `strtok` on the not yet scanned part of the string: `none`
for a null result, otherwise the token and the part left to scan.  The
delimiter that ends the token is overwritten with NUL and skipped. -/
def strtok (delim : List Nat) (s : List Nat) : Option (List Nat × List Nat) :=
  match s.dropWhile (fun c => delim.contains c) with
  | [] => none
  | c :: rest =>
    some ((c :: rest).takeWhile (fun c => !delim.contains c),
          ((c :: rest).dropWhile (fun c => !delim.contains c)).tail)

/-- The tokens that `strtok (line, delim)` and then `strtok (NULL, delim)`
yield until the first null result, in at most `fuel` calls.  A call that
yields a token shortens the string, so more calls than it has characters
always reach the null result (`strtok_all_fuel`). -/
def strtok_all (delim : List Nat) : (fuel : Nat) → List Nat → List (List Nat)
  | 0, _ => []
  | fuel + 1, s =>
    match strtok delim s with
    | none => []
    | some (token, rest) => token :: strtok_all delim fuel rest

/-- The local variables of `ush_split_line`. -/
structure SlState where
  bufsize : Nat
  position : Nat
  tokens : List (Option (Option (List Nat)))
  deriving DecidableEq, Repr

/-- One turn of the `while (token != NULL)` loop of `ush_split_line`. -/
def sl_body (os : OS) (token : List Nat) (s : SlState) : Step SlState Unit :=
  match store s.tokens s.position (some token) with
  | none => .fault
  | some t =>
    if INT_MAX ≤ s.position then .fault
    else
      let position := s.position + 1
      if s.bufsize ≤ position then
        if INT_MAX < s.bufsize + USH_TOK_BUFSIZE then .fault
        else
          let bufsize := s.bufsize + USH_TOK_BUFSIZE
          match realloc os t bufsize SIZEOF_PTR with
          | none => .quit EXIT_FAILURE [.stderr allocation_error]
          | some t2 => .next ⟨bufsize, position, t2⟩
      else .next ⟨s.bufsize, position, t⟩

/-- The loop of `ush_split_line` over the tokens `strtok` yields, then the
store of the null pointer. -/
def sl_loop (os : OS) (w : World) :
    List (List Nat) → SlState → Outcome (List (Option (Option (List Nat))))
  | [], s =>
    match store s.tokens s.position none with
    | none => .fault
    | some t => .returned t w
  | token :: rest, s =>
    match sl_body os token s with
    | .next s2 => sl_loop os w rest s2
    | .quit code ev => .exited code { w with trace := w.trace ++ ev }
    | _ => .fault

/-- The locals of `ush_split_line` on entry to its loop. -/
def sl_init (tokens : List (Option (Option (List Nat)))) : SlState :=
  ⟨USH_TOK_BUFSIZE, 0, tokens⟩

/-- `char **ush_split_line (char *line)`: the returned block.  `line` is the
string the argument points to; scanning stops at a NUL. -/
def ush_split_line (os : OS) (w : World) (line : List Nat) :
    Outcome (List (Option (Option (List Nat)))) :=
  match malloc os USH_TOK_BUFSIZE SIZEOF_PTR with
  | none => .exited EXIT_FAILURE (w.emit (.stderr allocation_error))
  | some tokens =>
    let str := line.takeWhile (fun c => c != 0)
    sl_loop os w (strtok_all USH_TOK_DELIM (str.length + 1) str) (sl_init tokens)

/-! ## Builtins, launcher and dispatcher -/

/-- The result of `strcmp`: zero, negative or positive. -/
def strcmp : List Nat → List Nat → Int
  | [], [] => 0
  | [], _ :: _ => -1
  | _ :: _, [] => 1
  | a :: as, b :: bs => if a = b then strcmp as bs else if a < b then -1 else 1

def builtin_str : List (List Nat) := [bytes "cd", bytes "help", bytes "exit"]

def ush_num_builtins : Nat := builtin_str.length

/-- `int ush_cd (char **args)`. -/
def ush_cd (os : OS) (w : World) (args : List (List Nat)) : Outcome Nat :=
  match args with
  | [] => .fault
  | [_] => .returned 1 (w.emit (.stderr (bytes "ush: expected argument to \"cd\"\n")))
  | _ :: path :: _ =>
    match os.chdir w.cwd path with
    | some dir => .returned 1 ({ w with cwd := dir }.emit (.chdir path true))
    | none => .returned 1 ((w.emit (.chdir path false)).emit (.perror (bytes "ush")))

/-- `int ush_help (char **args)`. -/
def ush_help (_os : OS) (w : World) (_args : List (List Nat)) : Outcome Nat :=
  let w1 := w.emit (.stdout (bytes "Uday's Shell\n"))
  let w2 := w1.emit (.stdout (bytes "The following are built in:\n"))
  let w3 := builtin_str.foldl (fun v name => v.emit (.stdout (bytes "  " ++ name ++ bytes "\n"))) w2
  .returned 1 (w3.emit (.stdout (bytes "Use the man command for information on other programs.\n")))

/-- `int ush_exit (char **args)`. -/
def ush_exit (_os : OS) (w : World) (_args : List (List Nat)) : Outcome Nat :=
  .returned 0 w

def builtin_func : List (OS → World → List (List Nat) → Outcome Nat) :=
  [ush_cd, ush_help, ush_exit]

/-- The `do ... while (!WIFEXITED (status) && !WIFSIGNALED (status))` loop of
`ush_launch` over the statuses `waitpid` reports. -/
def wait_loop (w : World) : List WaitStatus → Outcome Nat
  | [] => .hangs
  | st :: rest =>
    match st with
    | .stopped _ => wait_loop (w.emit (.waitpid st)) rest
    | _ => .returned 1 (w.emit (.waitpid st))

/-- `int ush_launch (char **args)`, as seen from the interpreter process; what
the child does is recorded in the `Event.child` it appends. -/
def ush_launch (os : OS) (w : World) (args : List (List Nat)) : Outcome Nat :=
  match args with
  | [] => .fault
  | file :: _ =>
    if os.fork w then
      match os.execvp file args with
      | none => wait_loop (w.emit (.child file args false)) [.exited EXIT_FAILURE]
      | some reports => wait_loop (w.emit (.child file args true)) reports
    else .returned 1 ((w.emit .forkFailed).emit (.perror (bytes "ush")))

/-- The `for` loop of `ush_execute` over the two builtin tables in step. -/
def execute_scan (os : OS) (w : World) (args : List (List Nat)) (arg0 : List Nat) :
    List (List Nat) → List (OS → World → List (List Nat) → Outcome Nat) → Outcome Nat
  | name :: names, func :: funcs =>
    if strcmp arg0 name = 0 then func os w args else execute_scan os w args arg0 names funcs
  | _, _ => ush_launch os w args

/-- `int ush_execute (char **args)`. -/
def ush_execute (os : OS) (w : World) (args : List (List Nat)) : Outcome Nat :=
  match args with
  | [] => .returned 1 w
  | arg0 :: _ => execute_scan os w args arg0 builtin_str builtin_func

/-! ## `ush_loop` and `main` -/

def Outcome.bind {α β : Type} (o : Outcome α) (f : α → World → Outcome β) : Outcome β :=
  match o with
  | .returned a w => f a w
  | .exited code w => .exited code w
  | .fault => .fault
  | .hangs => .hangs

/-- The body of the `do ... while (status)` loop of `ush_loop`: the status. -/
def loop_body (os : OS) (w : World) : Outcome Nat :=
  (ush_read_line os (w.emit (.stdout (bytes "--> ")))).bind fun line w1 =>
    match cstr line with
    | none => .fault
    | some str =>
      (ush_split_line os w1 str).bind fun tokens w2 =>
        match argv tokens with
        | none => .fault
        | some args => ush_execute os w2 args

/-- At most `fuel` turns of the `do ... while (status)` loop of `ush_loop`. -/
def loop_turns (os : OS) : (fuel : Nat) → World → Outcome Unit
  | 0, _ => .fault
  | fuel + 1, w =>
    (loop_body os w).bind fun status w1 =>
      if status ≠ 0 then loop_turns os fuel w1 else .returned () w1

/-- `void ush_loop (void)`.  A turn that goes round again has read a newline,
so one more turn than there are pending characters is enough
(`ush_loop_fuel`). -/
def ush_loop (os : OS) (w : World) : Outcome Unit :=
  loop_turns os (w.stdin.length + 1) w

/-- `int main (int argc, char **argv)`: returning from `main` ends the
process with the returned status. -/
def main (os : OS) (w : World) : Outcome Unit :=
  (ush_loop os w).bind fun _ w1 => .exited EXIT_SUCCESS w1

/-! ## Loop states -/

/-- The locals at the top of the loop of `ush_read_line` once the characters
`cs` have been read and stored, when the loop is still running. -/
def rl_reach (os : OS) : List Nat → RlState → Option RlState
  | [], s => some s
  | c :: cs, s =>
    match rl_body os (some c) s with
    | .next s2 => rl_reach os cs s2
    | _ => none

/-- The loop invariant of `ush_read_line`. -/
structure RlInv (s : RlState) : Prop where
  cap : s.bufsize = USH_RL_BUFSIZE * (s.position / USH_RL_BUFSIZE + 1)
  len : s.buffer.length = s.bufsize

/-- The locals at the top of the loop of `ush_split_line` once the tokens
`toks` have been stored, when the loop is still running. -/
def sl_reach (os : OS) : List (List Nat) → SlState → Option SlState
  | [], s => some s
  | token :: toks, s =>
    match sl_body os token s with
    | .next s2 => sl_reach os toks s2
    | _ => none

/-- The loop invariant of `ush_split_line`. -/
structure SlInv (s : SlState) : Prop where
  cap : s.bufsize = USH_TOK_BUFSIZE * (s.position / USH_TOK_BUFSIZE + 1)
  len : s.tokens.length = s.bufsize

/-! ## The tokenizer as the specification words it -/

/-- The delimiters: space, horizontal tab, carriage return, newline, bell. -/
def isDelimiter (c : Nat) : Bool :=
  c == 32 || c == 9 || c == 13 || c == 10 || c == 7

/-- `MaximalRuns line toks`: `toks` are, from left to right, the maximal runs
of non-delimiter characters of `line`.  The line is a run of delimiters
(`gap`), then a non-empty run of non-delimiters (the first token) that the end
of the line or a delimiter follows, then the rest of the line, split in the
same way. -/
inductive MaximalRuns : List Nat → List (List Nat) → Prop where
  | nil (gap : List Nat) (hgap : ∀ c ∈ gap, isDelimiter c = true) : MaximalRuns gap []
  | cons (gap tok rest : List Nat) (toks : List (List Nat))
      (hgap : ∀ c ∈ gap, isDelimiter c = true)
      (hne : tok ≠ [])
      (htok : ∀ c ∈ tok, isDelimiter c = false)
      (hend : ∀ c, rest.head? = some c → isDelimiter c = true)
      (hrest : MaximalRuns rest toks) :
      MaximalRuns (gap ++ tok ++ rest) (tok :: toks)

/-! ## Sample environments -/

/-- An OS that grants every allocation, accepts every `chdir` and `fork`, and
runs every program to a normal exit with status 0. -/
def os_ok : OS :=
  ⟨fun _ => true, fun _ path => some path, fun _ => true, fun _ _ => some [.exited 0]⟩

/-- A process at the root directory with the given pending input. -/
def world_of (input : List Nat) : World :=
  ⟨input, bytes "/", []⟩

/-! ## Reading a trace -/

/-- `WIFEXITED (status) || WIFSIGNALED (status)`. -/
def WaitStatus.terminated : WaitStatus → Bool
  | .stopped _ => false
  | _ => true

/-- The events that only `ush_launch` produces. -/
def Event.isLaunch : Event → Bool
  | .forkFailed => true
  | .child _ _ _ => true
  | .waitpid _ => true
  | _ => false

/-- What `help` prints: the banner, each builtin name once, a closing line. -/
def help_output : List Event :=
  [.stdout (bytes "Uday's Shell\n"),
   .stdout (bytes "The following are built in:\n"),
   .stdout (bytes "  cd\n"),
   .stdout (bytes "  help\n"),
   .stdout (bytes "  exit\n"),
   .stdout (bytes "Use the man command for information on other programs.\n")]

/-- Every program the OS runs ends: `waitpid` at some point reports that it
exited or was killed by a signal. -/
def OS.programsEnd (os : OS) : Prop :=
  ∀ file argv reports, os.execvp file argv = some reports →
    ∃ st ∈ reports, st.terminated = true

/-! ## The main loop as the specification words it -/

/-- The prompt `ush_loop` prints before each read. -/
def prompt : Event := .stdout (bytes "--> ")

theorem store_eq_some {α : Type} (buf : List (Option α)) (i : Nat) (v : α) (h : i < buf.length) :
    store buf i v = some (buf.set i (some v)) := by
  simp [store, h]

theorem realloc_eq_some {α : Type} (os : OS) (hos : ∀ n, os.alloc n = true)
    (buf : List (Option α)) (n size : Nat) :
    realloc os buf n size = some (buf.take n ++ List.replicate (n - buf.length) none) := by
  simp [realloc, hos]

theorem take_set_succ {α : Type} (l : List α) (i : Nat) (v : α) (h : i < l.length) :
    (l.set i v).take (i + 1) = l.take i ++ [v] := by
  induction l generalizing i with
  | nil => simp at h
  | cons a l ih =>
    cases i with
    | zero => simp
    | succ i => simp at h; simp [ih i h]

/-! ## `ush_read_line` -/

theorem rl_inv_lt {s : RlState} (h : RlInv s) : s.position < s.bufsize := by
  have := h.cap
  simp only [USH_RL_BUFSIZE] at this
  omega

/-- One turn of the loop on a character other than newline. -/
theorem rl_body_next (os : OS) (hos : ∀ n, os.alloc n = true) (c : Nat) (hc : c ≠ 10)
    (s : RlState) (hs : RlInv s) (hb : s.position + 1 + USH_RL_BUFSIZE ≤ INT_MAX) :
    ∃ s2, rl_body os (some c) s = .next s2 ∧ RlInv s2 ∧ s2.position = s.position + 1 ∧
      s2.buffer.take (s.position + 1) = s.buffer.take s.position ++ [some c] := by
  have hlt := rl_inv_lt hs
  have hcap := hs.cap
  have hlen := hs.len
  simp only [USH_RL_BUFSIZE, INT_MAX] at hb hcap
  have hst : store s.buffer s.position c = some (s.buffer.set s.position (some c)) :=
    store_eq_some _ _ _ (by omega)
  have htk := take_set_succ s.buffer s.position (some c) (by omega)
  by_cases hg : s.bufsize ≤ s.position + 1
  · refine ⟨⟨s.bufsize + USH_RL_BUFSIZE, s.position + 1,
      (s.buffer.set s.position (some c)).take (s.bufsize + USH_RL_BUFSIZE) ++
        List.replicate (s.bufsize + USH_RL_BUFSIZE - (s.buffer.set s.position (some c)).length) none⟩,
      ?_, ⟨?_, ?_⟩, rfl, ?_⟩
    · simp only [rl_body, hc, if_false, hst, realloc_eq_some os hos, USH_RL_BUFSIZE, INT_MAX]
      rw [if_neg (by omega), if_pos (by omega), if_neg (by omega)]
    · simp only [USH_RL_BUFSIZE]
      omega
    · simp [USH_RL_BUFSIZE]
      omega
    · simp only [USH_RL_BUFSIZE]
      rw [List.take_append_of_le_length (by simp; omega), List.take_take]
      rw [Nat.min_eq_left (by omega), htk]
  · refine ⟨⟨s.bufsize, s.position + 1, s.buffer.set s.position (some c)⟩, ?_, ⟨?_, ?_⟩, rfl, htk⟩
    · simp only [rl_body, hc, if_false, hst, USH_RL_BUFSIZE, INT_MAX]
      rw [if_neg (by omega), if_neg (by omega)]
    · simp only [USH_RL_BUFSIZE]
      omega
    · simp [hlen]

theorem store_some {α : Type} {buf b : List (Option α)} {i : Nat} {v : α}
    (h : store buf i v = some b) : i < buf.length ∧ b = buf.set i (some v) := by
  unfold store at h
  split at h
  · rename_i hlt
    exact ⟨hlt, by simpa using h.symm⟩
  · simp at h

theorem realloc_length {α : Type} {os : OS} {buf b : List (Option α)} {n size : Nat}
    (h : realloc os buf n size = some b) : b.length = n := by
  unfold realloc at h
  split at h
  · simp only [Option.some.injEq] at h
    subst h
    simp
    omega
  · simp at h

/-- A turn that goes round again keeps the invariant, whatever the OS does. -/
theorem rl_body_inv (os : OS) (c : Option Nat) (s s2 : RlState) (hs : RlInv s)
    (h : rl_body os c s = .next s2) : RlInv s2 ∧ s2.position = s.position + 1 := by
  have hcap := hs.cap
  have hlen := hs.len
  simp only [USH_RL_BUFSIZE] at hcap
  cases c with
  | none => simp [rl_body] at h
  | some c =>
    by_cases hc : c = 10
    · cases hst : store s.buffer s.position 0 <;> simp [rl_body, hc, hst] at h
    · cases hst : store s.buffer s.position c with
      | none => simp [rl_body, hc, hst] at h
      | some b =>
        obtain ⟨hlt, hb⟩ := store_some hst
        by_cases h1 : INT_MAX ≤ s.position
        · simp [rl_body, hc, hst, h1] at h
        · by_cases h2 : s.bufsize ≤ s.position + 1
          · by_cases h3 : INT_MAX < s.bufsize + USH_RL_BUFSIZE
            · simp [rl_body, hc, hst, h1, h2, h3] at h
            · cases hre : realloc os b (s.bufsize + USH_RL_BUFSIZE) SIZEOF_CHAR with
              | none => simp [rl_body, hc, hst, h1, h2, h3, hre] at h
              | some b2 =>
                have hl2 := realloc_length hre
                simp [rl_body, hc, hst, h1, h2, h3, hre] at h
                subst h
                refine ⟨⟨?_, hl2⟩, rfl⟩
                simp only [USH_RL_BUFSIZE]
                omega
          · simp [rl_body, hc, hst, h1, h2] at h
            subst h
            refine ⟨⟨?_, ?_⟩, rfl⟩
            · simp only [USH_RL_BUFSIZE]
              omega
            · simp [hb, hlen]

theorem rl_reach_inv (os : OS) (cs : List Nat) (s s2 : RlState) (hs : RlInv s)
    (h : rl_reach os cs s = some s2) : RlInv s2 ∧ s2.position = s.position + cs.length := by
  induction cs generalizing s with
  | nil =>
    simp only [rl_reach, Option.some.injEq] at h
    subst h
    exact ⟨hs, rfl⟩
  | cons c cs ih =>
    simp only [rl_reach] at h
    split at h
    · rename_i s1 h1
      obtain ⟨hi, hp⟩ := rl_body_inv os (some c) s s1 hs h1
      obtain ⟨hi2, hp2⟩ := ih s1 hi h
      refine ⟨hi2, ?_⟩
      simp only [List.length_cons]
      omega
    · simp at h

theorem rl_reach_some (os : OS) (hos : ∀ n, os.alloc n = true) (cs : List Nat) (hcs : 10 ∉ cs)
    (s : RlState) (hs : RlInv s) (hb : s.position + cs.length + USH_RL_BUFSIZE ≤ INT_MAX) :
    ∃ s2, rl_reach os cs s = some s2 ∧ RlInv s2 ∧ s2.position = s.position + cs.length ∧
      s2.buffer.take s2.position = s.buffer.take s.position ++ cs.map some := by
  induction cs generalizing s with
  | nil => exact ⟨s, rfl, hs, rfl, by simp⟩
  | cons c cs ih =>
    simp only [List.mem_cons, not_or] at hcs
    simp only [List.length_cons] at hb
    obtain ⟨s1, h1, hi1, hp1, ht1⟩ := rl_body_next os hos c (fun h => hcs.1 h.symm) s hs (by omega)
    obtain ⟨s2, h2, hi2, hp2, ht2⟩ := ih hcs.2 s1 hi1 (by omega)
    refine ⟨s2, ?_, hi2, ?_, ?_⟩
    · simp only [rl_reach, h1, h2]
    · simp only [List.length_cons]; omega
    · rw [ht2, hp1, ht1]; simp

theorem rl_loop_append (os : OS) (w : World) (cs rest : List Nat) (s s2 : RlState)
    (h : rl_reach os cs s = some s2) : rl_loop os w (cs ++ rest) s = rl_loop os w rest s2 := by
  induction cs generalizing s with
  | nil =>
    simp only [rl_reach, Option.some.injEq] at h
    subst h
    rfl
  | cons c cs ih =>
    simp only [rl_reach] at h
    split at h
    · rename_i s1 h1
      simp only [List.cons_append, rl_loop, h1]
      exact ih s1 h
    · simp at h

theorem rl_loop_newline (os : OS) (w : World) (rest : List Nat) (s : RlState) (hs : RlInv s) :
    rl_loop os w (10 :: rest) s =
      .returned (s.buffer.set s.position (some 0)) { w with stdin := rest } := by
  have hlt := rl_inv_lt hs
  have hlen := hs.len
  simp [rl_loop, rl_body, store_eq_some s.buffer s.position 0 (by omega)]

theorem rl_loop_eof (os : OS) (w : World) (s : RlState) :
    rl_loop os w [] s = .exited EXIT_SUCCESS { w with stdin := [] } := by
  simp [rl_loop, rl_body]

theorem cstr_map_some (l : List Nat) (tail : List (Option Nat)) :
    cstr (l.map some ++ some 0 :: tail) = some (l.takeWhile (fun c => c != 0)) := by
  induction l with
  | nil => simp [cstr]
  | cons a l ih =>
    by_cases ha : a = 0
    · simp [cstr, ha]
    · simp [cstr, ha, ih]

theorem rl_init_inv (buffer : List (Option Nat)) (h : buffer.length = USH_RL_BUFSIZE) :
    RlInv (rl_init buffer) := by
  constructor
  · simp [rl_init, USH_RL_BUFSIZE]
  · simpa [rl_init] using h

/-! ## `ush_split_line`: the token block -/

theorem sl_inv_lt {s : SlState} (h : SlInv s) : s.position < s.bufsize := by
  have := h.cap
  simp only [USH_TOK_BUFSIZE] at this
  omega

/-- One turn of the loop of `ush_split_line`. -/
theorem sl_body_next (os : OS) (hos : ∀ n, os.alloc n = true) (token : List Nat)
    (s : SlState) (hs : SlInv s) (hb : s.position + 1 + USH_TOK_BUFSIZE ≤ INT_MAX) :
    ∃ s2, sl_body os token s = .next s2 ∧ SlInv s2 ∧ s2.position = s.position + 1 ∧
      s2.tokens.take (s.position + 1) = s.tokens.take s.position ++ [some (some token)] := by
  have hlt := sl_inv_lt hs
  have hcap := hs.cap
  have hlen := hs.len
  simp only [USH_TOK_BUFSIZE, INT_MAX] at hb hcap
  have hst : store s.tokens s.position (some token) =
      some (s.tokens.set s.position (some (some token))) :=
    store_eq_some _ _ _ (by omega)
  have htk := take_set_succ s.tokens s.position (some (some token)) (by omega)
  by_cases hg : s.bufsize ≤ s.position + 1
  · refine ⟨⟨s.bufsize + USH_TOK_BUFSIZE, s.position + 1,
      (s.tokens.set s.position (some (some token))).take (s.bufsize + USH_TOK_BUFSIZE) ++
        List.replicate
          (s.bufsize + USH_TOK_BUFSIZE - (s.tokens.set s.position (some (some token))).length) none⟩,
      ?_, ⟨?_, ?_⟩, rfl, ?_⟩
    · simp only [sl_body, hst, realloc_eq_some os hos, USH_TOK_BUFSIZE, INT_MAX]
      rw [if_neg (by omega), if_pos (by omega), if_neg (by omega)]
    · simp only [USH_TOK_BUFSIZE]
      omega
    · simp [USH_TOK_BUFSIZE]
      omega
    · simp only [USH_TOK_BUFSIZE]
      rw [List.take_append_of_le_length (by simp; omega), List.take_take]
      rw [Nat.min_eq_left (by omega), htk]
  · refine ⟨⟨s.bufsize, s.position + 1, s.tokens.set s.position (some (some token))⟩,
      ?_, ⟨?_, ?_⟩, rfl, htk⟩
    · simp only [sl_body, hst, USH_TOK_BUFSIZE, INT_MAX]
      rw [if_neg (by omega), if_neg (by omega)]
    · simp only [USH_TOK_BUFSIZE]
      omega
    · simp [hlen]

/-- A turn that goes round again keeps the invariant, whatever the OS does. -/
theorem sl_body_inv (os : OS) (token : List Nat) (s s2 : SlState) (hs : SlInv s)
    (h : sl_body os token s = .next s2) : SlInv s2 ∧ s2.position = s.position + 1 := by
  have hcap := hs.cap
  have hlen := hs.len
  simp only [USH_TOK_BUFSIZE] at hcap
  cases hst : store s.tokens s.position (some token) with
  | none => simp [sl_body, hst] at h
  | some b =>
    obtain ⟨hlt, hb⟩ := store_some hst
    by_cases h1 : INT_MAX ≤ s.position
    · simp [sl_body, hst, h1] at h
    · by_cases h2 : s.bufsize ≤ s.position + 1
      · by_cases h3 : INT_MAX < s.bufsize + USH_TOK_BUFSIZE
        · simp [sl_body, hst, h1, h2, h3] at h
        · cases hre : realloc os b (s.bufsize + USH_TOK_BUFSIZE) SIZEOF_PTR with
          | none => simp [sl_body, hst, h1, h2, h3, hre] at h
          | some b2 =>
            have hl2 := realloc_length hre
            simp [sl_body, hst, h1, h2, h3, hre] at h
            subst h
            refine ⟨⟨?_, hl2⟩, rfl⟩
            simp only [USH_TOK_BUFSIZE]
            omega
      · simp [sl_body, hst, h1, h2] at h
        subst h
        refine ⟨⟨?_, ?_⟩, rfl⟩
        · simp only [USH_TOK_BUFSIZE]
          omega
        · simp [hb, hlen]

theorem sl_reach_inv (os : OS) (toks : List (List Nat)) (s s2 : SlState) (hs : SlInv s)
    (h : sl_reach os toks s = some s2) : SlInv s2 ∧ s2.position = s.position + toks.length := by
  induction toks generalizing s with
  | nil =>
    simp only [sl_reach, Option.some.injEq] at h
    subst h
    exact ⟨hs, rfl⟩
  | cons c cs ih =>
    simp only [sl_reach] at h
    split at h
    · rename_i s1 h1
      obtain ⟨hi, hp⟩ := sl_body_inv os c s s1 hs h1
      obtain ⟨hi2, hp2⟩ := ih s1 hi h
      refine ⟨hi2, ?_⟩
      simp only [List.length_cons]
      omega
    · simp at h

theorem sl_reach_some (os : OS) (hos : ∀ n, os.alloc n = true) (toks : List (List Nat))
    (s : SlState) (hs : SlInv s) (hb : s.position + toks.length + USH_TOK_BUFSIZE ≤ INT_MAX) :
    ∃ s2, sl_reach os toks s = some s2 ∧ SlInv s2 ∧ s2.position = s.position + toks.length ∧
      s2.tokens.take s2.position = s.tokens.take s.position ++ toks.map (fun t => some (some t)) := by
  induction toks generalizing s with
  | nil => exact ⟨s, rfl, hs, rfl, by simp⟩
  | cons c cs ih =>
    simp only [List.length_cons] at hb
    obtain ⟨s1, h1, hi1, hp1, ht1⟩ := sl_body_next os hos c s hs (by omega)
    obtain ⟨s2, h2, hi2, hp2, ht2⟩ := ih s1 hi1 (by omega)
    refine ⟨s2, ?_, hi2, ?_, ?_⟩
    · simp only [sl_reach, h1, h2]
    · simp only [List.length_cons]; omega
    · rw [ht2, hp1, ht1]; simp

theorem sl_loop_reach (os : OS) (w : World) (toks : List (List Nat)) (s s2 : SlState)
    (hs2 : SlInv s2) (h : sl_reach os toks s = some s2) :
    sl_loop os w toks s = .returned (s2.tokens.set s2.position (some none)) w := by
  induction toks generalizing s with
  | nil =>
    simp only [sl_reach, Option.some.injEq] at h
    subst h
    have hlt := sl_inv_lt hs2
    have hlen := hs2.len
    simp [sl_loop, store_eq_some s.tokens s.position none (by omega)]
  | cons c cs ih =>
    simp only [sl_reach] at h
    split at h
    · rename_i s1 h1
      simp only [sl_loop, h1]
      exact ih s1 h
    · simp at h

theorem argv_map_some (toks : List (List Nat)) (tail : List (Option (Option (List Nat)))) :
    argv (toks.map (fun t => some (some t)) ++ some none :: tail) = some toks := by
  induction toks with
  | nil => simp [argv]
  | cons a l ih => simp [argv, ih]

theorem sl_init_inv (tokens : List (Option (Option (List Nat))))
    (h : tokens.length = USH_TOK_BUFSIZE) : SlInv (sl_init tokens) := by
  constructor
  · simp [sl_init, USH_TOK_BUFSIZE]
  · simpa [sl_init] using h

theorem set_eq_take_cons_drop {α : Type} (l : List α) (i : Nat) (v : α) (h : i < l.length) :
    l.set i v = l.take i ++ v :: l.drop (i + 1) := by
  induction l generalizing i with
  | nil => simp at h
  | cons a l ih =>
    cases i with
    | zero => simp
    | succ i => simp at h; simp [ih i h]

theorem ush_split_line_eq (os : OS) (hos : ∀ n, os.alloc n = true) (w : World) (line : List Nat) :
    ush_split_line os w line =
      sl_loop os w (strtok_all USH_TOK_DELIM ((line.takeWhile (fun c => c != 0)).length + 1)
        (line.takeWhile (fun c => c != 0))) (sl_init (List.replicate USH_TOK_BUFSIZE none)) := by
  simp [ush_split_line, malloc, hos]

/-- With every allocation granted and the token count in the `int` range, the
loop of `ush_split_line` returns a block that holds the tokens and then the
null pointer. -/
theorem sl_loop_returns (os : OS) (hos : ∀ n, os.alloc n = true) (w : World)
    (toks : List (List Nat)) (hb : toks.length + USH_TOK_BUFSIZE ≤ INT_MAX) :
    ∃ block, sl_loop os w toks (sl_init (List.replicate USH_TOK_BUFSIZE none)) = .returned block w ∧
      argv block = some toks ∧ block.get? toks.length = some (some none) ∧
      block.take toks.length = toks.map (fun t => some (some t)) := by
  have hinit : SlInv (sl_init (List.replicate USH_TOK_BUFSIZE none)) := sl_init_inv _ (by simp)
  obtain ⟨s2, h2, hi2, hp2, ht2⟩ := sl_reach_some os hos toks _ hinit (by simpa [sl_init] using hb)
  have hlt := sl_inv_lt hi2
  have hlen := hi2.len
  simp only [sl_init, List.take_zero, List.nil_append, Nat.zero_add] at ht2 hp2
  have hset := set_eq_take_cons_drop s2.tokens s2.position (some none) (by omega)
  rw [ht2] at hset
  refine ⟨s2.tokens.set s2.position (some none), sl_loop_reach os w toks _ s2 hi2 h2, ?_, ?_, ?_⟩
  · rw [hset, argv_map_some]
  · rw [← hp2]
    simp [List.getElem?_set_self, hlen, hlt]
  · rw [hset, ← hp2]
    have : (toks.map (fun t => (some (some t) : Option (Option (List Nat))))).length = s2.position := by
      simp [hp2]
    rw [List.take_append_of_le_length (by omega), List.take_of_length_le (by omega)]

/-! ## `strtok` and maximal runs -/

theorem contains_delim (c : Nat) : USH_TOK_DELIM.contains c = isDelimiter c := by
  have h : USH_TOK_DELIM = [32, 9, 13, 10, 7] := by decide
  rw [h]
  by_cases h1 : c = 32 <;> by_cases h2 : c = 9 <;> by_cases h3 : c = 13 <;>
    by_cases h4 : c = 10 <;> by_cases h5 : c = 7 <;> simp [isDelimiter, h1, h2, h3, h4, h5]

theorem strtok_eq (s : List Nat) :
    strtok USH_TOK_DELIM s =
      match s.dropWhile isDelimiter with
      | [] => none
      | c :: rest =>
        some ((c :: rest).takeWhile (fun c => !isDelimiter c),
              ((c :: rest).dropWhile (fun c => !isDelimiter c)).tail) := by
  have h : (fun c => USH_TOK_DELIM.contains c) = isDelimiter := funext contains_delim
  simp only [strtok, contains_delim, h]

theorem strtok_of_dropWhile (s : List Nat) (c : Nat) (r : List Nat)
    (h : s.dropWhile isDelimiter = c :: r) :
    strtok USH_TOK_DELIM s =
      some ((c :: r).takeWhile (fun c => !isDelimiter c),
            ((c :: r).dropWhile (fun c => !isDelimiter c)).tail) := by
  rw [strtok_eq, h]

theorem dropWhile_append_all {α : Type} (q : α → Bool) (a b : List α) (h : ∀ c ∈ a, q c = true) :
    (a ++ b).dropWhile q = b.dropWhile q := by
  induction a with
  | nil => rfl
  | cons x a ih =>
    simp only [List.mem_cons, forall_eq_or_imp] at h
    simp [List.dropWhile, h.1, ih h.2]

theorem takeWhile_append_all {α : Type} (q : α → Bool) (a b : List α) (h : ∀ c ∈ a, q c = true) :
    (a ++ b).takeWhile q = a ++ b.takeWhile q := by
  induction a with
  | nil => rfl
  | cons x a ih =>
    simp only [List.mem_cons, forall_eq_or_imp] at h
    simp [List.takeWhile, h.1, ih h.2]

theorem takeWhile_head_false {α : Type} (q : α → Bool) (l : List α)
    (h : ∀ c, l.head? = some c → q c = false) : l.takeWhile q = [] := by
  cases l with
  | nil => rfl
  | cons x l => simp [List.takeWhile, h x rfl]

theorem dropWhile_head_false {α : Type} (q : α → Bool) (l : List α)
    (h : ∀ c, l.head? = some c → q c = false) : l.dropWhile q = l := by
  cases l with
  | nil => rfl
  | cons x l => simp [List.dropWhile, h x rfl]

/-- Skipping a leading delimiter does not change what `strtok` finds. -/
theorem strtok_tail (rest : List Nat) (h : ∀ c, rest.head? = some c → isDelimiter c = true) :
    strtok USH_TOK_DELIM rest.tail = strtok USH_TOK_DELIM rest := by
  cases rest with
  | nil => rfl
  | cons x l =>
    rw [strtok_eq, strtok_eq]
    simp [List.dropWhile, h x rfl]

theorem strtok_all_tail (fuel : Nat) (rest : List Nat)
    (h : ∀ c, rest.head? = some c → isDelimiter c = true) :
    strtok_all USH_TOK_DELIM fuel rest.tail = strtok_all USH_TOK_DELIM fuel rest := by
  cases fuel with
  | zero => rfl
  | succ n => simp only [strtok_all, strtok_tail rest h]

/-- The first token of a line that starts with a gap and a run. -/
theorem strtok_run (gap tok rest : List Nat) (hgap : ∀ c ∈ gap, isDelimiter c = true)
    (hne : tok ≠ []) (htok : ∀ c ∈ tok, isDelimiter c = false)
    (hend : ∀ c, rest.head? = some c → isDelimiter c = true) :
    strtok USH_TOK_DELIM (gap ++ tok ++ rest) = some (tok, rest.tail) := by
  obtain ⟨t, ts, rfl⟩ := List.exists_cons_of_ne_nil hne
  have ht : isDelimiter t = false := htok t (by simp)
  have hq : ∀ c ∈ t :: ts, (fun c => !isDelimiter c) c = true := by
    intro c hc
    simp [htok c hc]
  have hr : ∀ c, rest.head? = some c → (fun c => !isDelimiter c) c = false := by
    intro c hc
    simp [hend c hc]
  have h1 : (gap ++ (t :: ts) ++ rest).dropWhile isDelimiter = t :: (ts ++ rest) := by
    rw [List.append_assoc, dropWhile_append_all _ _ _ hgap]
    simp [List.dropWhile, ht]
  have h2 : t :: (ts ++ rest) = (t :: ts) ++ rest := rfl
  rw [strtok_of_dropWhile _ _ _ h1, h2, takeWhile_append_all _ _ _ hq,
    dropWhile_append_all _ _ _ hq, takeWhile_head_false _ _ hr, dropWhile_head_false _ _ hr]
  simp

/-- The maximal runs of a line are the tokens `strtok` yields, given fuel. -/
theorem strtok_all_of_runs (line : List Nat) (toks : List (List Nat)) (h : MaximalRuns line toks) :
    ∀ fuel, line.length < fuel → strtok_all USH_TOK_DELIM fuel line = toks := by
  induction h with
  | nil gap hgap =>
    intro fuel hf
    obtain ⟨n, rfl⟩ : ∃ n, fuel = n + 1 := ⟨fuel - 1, by omega⟩
    have : gap.dropWhile isDelimiter = [] := by
      simpa [List.dropWhile_eq_nil_iff] using hgap
    simp [strtok_all, strtok_eq, this]
  | cons gap tok rest toks hgap hne htok hend _ ih =>
    intro fuel hf
    obtain ⟨n, rfl⟩ : ∃ n, fuel = n + 1 := ⟨fuel - 1, by omega⟩
    have hl : 0 < tok.length := List.length_pos.mpr hne
    simp only [List.length_append] at hf
    simp only [strtok_all, strtok_run gap tok rest hgap hne htok hend,
      strtok_all_tail n rest hend]
    rw [ih n (by omega)]

/-- The tokens `strtok` yields are the maximal runs of the line. -/
theorem runs_strtok_all (fuel : Nat) :
    ∀ line : List Nat, line.length < fuel → MaximalRuns line (strtok_all USH_TOK_DELIM fuel line) := by
  induction fuel with
  | zero => intro line h; omega
  | succ n ih =>
    intro line hlen
    have hsplit := List.takeWhile_append_dropWhile isDelimiter line
    have hgap : ∀ c ∈ line.takeWhile isDelimiter, isDelimiter c = true :=
      fun c hc => List.mem_takeWhile_imp hc
    cases hd : line.dropWhile isDelimiter with
    | nil =>
      have : line.takeWhile isDelimiter = line := by simpa [hd] using hsplit
      simp only [strtok_all, strtok_eq, hd]
      rw [← this]
      exact MaximalRuns.nil _ hgap
    | cons c r =>
      have hc : isDelimiter c = false := by
        have := List.head_dropWhile_not isDelimiter line (by simp [hd])
        simpa [hd] using this
      simp only [strtok_all, strtok_eq, hd]
      have hs2 := List.takeWhile_append_dropWhile (fun c => !isDelimiter c) (c :: r)
      have htok : ∀ x ∈ (c :: r).takeWhile (fun c => !isDelimiter c), isDelimiter x = false := by
        intro x hx
        simpa using List.mem_takeWhile_imp hx
      have hne : (c :: r).takeWhile (fun c => !isDelimiter c) ≠ [] := by
        simp [List.takeWhile, hc]
      have hend : ∀ x, ((c :: r).dropWhile (fun c => !isDelimiter c)).head? = some x →
          isDelimiter x = true := by
        intro x hx
        have hnil : (c :: r).dropWhile (fun c => !isDelimiter c) ≠ [] := by
          intro h0; simp [h0] at hx
        have := List.head_dropWhile_not (fun c => !isDelimiter c) (c :: r) hnil
        rw [List.head?_eq_head hnil] at hx
        simp only [Option.some.injEq] at hx
        rw [hx] at this
        simpa using this
      have hlen2 : ((c :: r).dropWhile (fun c => !isDelimiter c)).length < n := by
        have h1 : 0 < ((c :: r).takeWhile (fun c => !isDelimiter c)).length :=
          List.length_pos.mpr hne
        have h2 := congrArg List.length hs2
        have h3 := congrArg List.length hsplit
        simp only [List.length_append, hd] at h2 h3
        omega
      rw [strtok_all_tail n _ hend]
      have key := MaximalRuns.cons (line.takeWhile isDelimiter)
        ((c :: r).takeWhile (fun c => !isDelimiter c))
        ((c :: r).dropWhile (fun c => !isDelimiter c)) _ hgap hne htok hend (ih _ hlen2)
      rw [List.append_assoc, hs2, ← hd, hsplit] at key
      rw [← hd]
      exact key

theorem runs_length_le (line : List Nat) (toks : List (List Nat)) (h : MaximalRuns line toks) :
    toks.length ≤ line.length := by
  induction h with
  | nil gap _ => simp
  | cons gap tok rest toks _ hne _ _ _ ih =>
    have hl : 0 < tok.length := List.length_pos.mpr hne
    simp only [List.length_append, List.length_cons]
    omega

theorem runs_tokens (line : List Nat) (toks : List (List Nat)) (h : MaximalRuns line toks) :
    ∀ t ∈ toks, t ≠ [] ∧ ∀ c ∈ t, isDelimiter c = false := by
  induction h with
  | nil gap _ => simp
  | cons gap tok rest toks _ hne htok _ _ ih =>
    intro t ht
    rcases List.mem_cons.mp ht with rfl | ht
    · exact ⟨hne, htok⟩
    · exact ih t ht

theorem takeWhile_ne_zero (line : List Nat) (h0 : 0 ∉ line) :
    line.takeWhile (fun c => c != 0) = line := by
  rw [List.takeWhile_eq_self_iff]
  intro c hc
  have : c ≠ 0 := fun h => h0 (h ▸ hc)
  simpa using this

/-- C1: for every line (a string, so free of NUL) that is short enough for
the token count to fit in an `int`, and with every allocation granted,
`ush_split_line` returns a block whose first cells hold, from left to right,
exactly the maximal runs of non-delimiter characters of the line, followed by
the null pointer right after the last token; no token is empty and none
contains a delimiter. -/
theorem ush_split_line_maximal_runs (os : OS) (w : World) (line : List Nat)
    (hos : ∀ n, os.alloc n = true) (h0 : 0 ∉ line)
    (hb : line.length + USH_TOK_BUFSIZE ≤ INT_MAX) :
    ∃ block toks, ush_split_line os w line = .returned block w ∧
      block.take toks.length = toks.map (fun t => some (some t)) ∧
      block.get? toks.length = some (some none) ∧
      argv block = some toks ∧
      MaximalRuns line toks ∧
      (∀ toks2, MaximalRuns line toks2 → toks2 = toks) ∧
      (∀ t ∈ toks, t ≠ [] ∧ ∀ c ∈ t, isDelimiter c = false) := by
  have hruns := runs_strtok_all (line.length + 1) line (by omega)
  have hlen := runs_length_le _ _ hruns
  obtain ⟨block, hret, hargv, hnull, htake⟩ := sl_loop_returns os hos w
    (strtok_all USH_TOK_DELIM (line.length + 1) line) (by omega)
  refine ⟨block, strtok_all USH_TOK_DELIM (line.length + 1) line, ?_, htake, hnull, hargv, hruns,
    ?_, runs_tokens _ _ hruns⟩
  · rw [ush_split_line_eq os hos, takeWhile_ne_zero line h0]
    exact hret
  · intro toks2 h2
    exact (strtok_all_of_runs line toks2 h2 (line.length + 1) (by omega)).symm

theorem ush_split_line_maximal_runs_witness :
    (∀ n, os_ok.alloc n = true) ∧ 0 ∉ bytes "  ls -la " ∧
    (bytes "  ls -la ").length + USH_TOK_BUFSIZE ≤ INT_MAX ∧
    ∃ block toks, ush_split_line os_ok (world_of []) (bytes "  ls -la ") =
        .returned block (world_of []) ∧
      block.take toks.length = toks.map (fun t => some (some t)) ∧
      block.get? toks.length = some (some none) ∧
      argv block = some toks ∧
      MaximalRuns (bytes "  ls -la ") toks ∧
      (∀ toks2, MaximalRuns (bytes "  ls -la ") toks2 → toks2 = toks) ∧
      (∀ t ∈ toks, t ≠ [] ∧ ∀ c ∈ t, isDelimiter c = false) :=
  ⟨fun _ => rfl, by decide, by decide,
    ush_split_line_maximal_runs os_ok (world_of []) (bytes "  ls -la ") (fun _ => rfl)
      (by decide) (by decide)⟩

/-- C5: for every line made only of delimiters (the empty line included),
once the first allocation is granted `ush_split_line` returns a block whose
first cell is the null pointer, so it holds zero tokens, and `ush_execute` on
that result returns `continue` (1) in an unchanged world: nothing is written,
no directory change is attempted and no child is created. -/
theorem blank_line_is_ignored (os : OS) (w : World) (line : List Nat)
    (hos : os.alloc (USH_TOK_BUFSIZE * SIZEOF_PTR) = true)
    (hline : ∀ c ∈ line, isDelimiter c = true) :
    ∃ block, ush_split_line os w line = .returned block w ∧
      block.head? = some (some none) ∧
      argv block = some [] ∧
      ush_execute os w [] = .returned 1 w ∧
      ((ush_split_line os w line).bind fun tokens w2 =>
        match argv tokens with
        | none => .fault
        | some args => ush_execute os w2 args) = .returned 1 w := by
  have h0 : 0 ∉ line := fun h => by simpa [isDelimiter] using hline 0 h
  have htoks : strtok_all USH_TOK_DELIM (line.length + 1) line = [] :=
    strtok_all_of_runs line [] (MaximalRuns.nil line hline) _ (by omega)
  have hret : ush_split_line os w line =
      .returned ((List.replicate USH_TOK_BUFSIZE none).set 0 (some none)) w := by
    simp only [ush_split_line, malloc, hos, if_true, takeWhile_ne_zero line h0, htoks]
    rfl
  refine ⟨_, hret, rfl, rfl, rfl, ?_⟩
  rw [hret]
  rfl

theorem blank_line_is_ignored_witness :
    os_ok.alloc (USH_TOK_BUFSIZE * SIZEOF_PTR) = true ∧
    (∀ c ∈ bytes " \t \r", isDelimiter c = true) ∧
    ∃ block, ush_split_line os_ok (world_of []) (bytes " \t \r") = .returned block (world_of []) ∧
      block.head? = some (some none) ∧
      argv block = some [] ∧
      ush_execute os_ok (world_of []) [] = .returned 1 (world_of []) ∧
      ((ush_split_line os_ok (world_of []) (bytes " \t \r")).bind fun tokens w2 =>
        match argv tokens with
        | none => .fault
        | some args => ush_execute os_ok w2 args) = .returned 1 (world_of []) :=
  ⟨rfl, by decide, blank_line_is_ignored os_ok (world_of []) (bytes " \t \r") rfl (by decide)⟩

/-! ## The dispatcher -/

theorem strcmp_eq_zero (a b : List Nat) : strcmp a b = 0 ↔ a = b := by
  induction a generalizing b with
  | nil => cases b <;> simp [strcmp]
  | cons x a ih =>
    cases b with
    | nil => simp [strcmp]
    | cons y b =>
      by_cases hxy : x = y
      · simp [strcmp, hxy, ih]
      · by_cases hlt : x < y <;> simp [strcmp, hxy, hlt]

theorem execute_cd (os : OS) (w : World) (rest : List (List Nat)) :
    ush_execute os w (bytes "cd" :: rest) = ush_cd os w (bytes "cd" :: rest) := by
  simp [ush_execute, builtin_str, builtin_func, execute_scan, strcmp_eq_zero]

theorem execute_help (os : OS) (w : World) (rest : List (List Nat)) :
    ush_execute os w (bytes "help" :: rest) = ush_help os w (bytes "help" :: rest) := by
  have h : bytes "help" ≠ bytes "cd" := by decide
  simp [ush_execute, builtin_str, builtin_func, execute_scan, strcmp_eq_zero, h]

theorem execute_exit (os : OS) (w : World) (rest : List (List Nat)) :
    ush_execute os w (bytes "exit" :: rest) = ush_exit os w (bytes "exit" :: rest) := by
  have h1 : bytes "exit" ≠ bytes "cd" := by decide
  have h2 : bytes "exit" ≠ bytes "help" := by decide
  simp [ush_execute, builtin_str, builtin_func, execute_scan, strcmp_eq_zero, h1, h2]

theorem execute_external (os : OS) (w : World) (arg0 : List Nat) (rest : List (List Nat))
    (h : arg0 ∉ builtin_str) :
    ush_execute os w (arg0 :: rest) = ush_launch os w (arg0 :: rest) := by
  simp only [builtin_str, List.mem_cons, List.mem_singleton, not_or, List.not_mem_nil,
    or_false] at h
  simp [ush_execute, builtin_str, builtin_func, execute_scan, strcmp_eq_zero, h.1, h.2.1, h.2.2]

theorem mem_builtin_str (arg0 : List Nat) :
    arg0 ∈ builtin_str ↔ arg0 = bytes "cd" ∨ arg0 = bytes "help" ∨ arg0 = bytes "exit" := by
  simp [builtin_str]

theorem ush_help_eq (os : OS) (w : World) (args : List (List Nat)) :
    ush_help os w args = .returned 1 ⟨w.stdin, w.cwd, w.trace ++ help_output⟩ := by
  have h1 : bytes "  " ++ bytes "cd" ++ bytes "\n" = bytes "  cd\n" := by decide
  have h2 : bytes "  " ++ bytes "help" ++ bytes "\n" = bytes "  help\n" := by decide
  have h3 : bytes "  " ++ bytes "exit" ++ bytes "\n" = bytes "  exit\n" := by decide
  simp only [ush_help, World.emit, builtin_str, List.foldl, h1, h2, h3, help_output,
    List.append_assoc, List.cons_append, List.nil_append, List.singleton_append]

/-- A builtin returns, and what it appends to the trace is not the work of
`ush_launch`. -/
theorem builtin_returns (os : OS) (w : World) (arg0 : List Nat) (rest : List (List Nat))
    (h : arg0 ∈ builtin_str) :
    ∃ st w2 ev, ush_execute os w (arg0 :: rest) = .returned st w2 ∧ w2.stdin = w.stdin ∧
      w2.trace = w.trace ++ ev ∧ ∀ e ∈ ev, e.isLaunch = false := by
  rcases (mem_builtin_str arg0).mp h with rfl | rfl | rfl
  · rw [execute_cd]
    cases rest with
    | nil => exact ⟨1, _, [_], rfl, rfl, rfl, by simp [Event.isLaunch]⟩
    | cons path more =>
      cases hch : os.chdir w.cwd path with
      | none =>
        refine ⟨1, (w.emit (.chdir path false)).emit (.perror (bytes "ush")),
          [.chdir path false, .perror (bytes "ush")], ?_, ?_, ?_, ?_⟩
        · simp only [ush_cd, hch]
        · rfl
        · simp [World.emit]
        · simp [Event.isLaunch]
      | some dir =>
        refine ⟨1, { w with cwd := dir }.emit (.chdir path true), [.chdir path true],
          ?_, ?_, ?_, ?_⟩
        · simp only [ush_cd, hch]
        · rfl
        · simp [World.emit]
        · simp [Event.isLaunch]
  · rw [execute_help, ush_help_eq]
    exact ⟨1, _, help_output, rfl, rfl, rfl, by simp [help_output, Event.isLaunch]⟩
  · rw [execute_exit]
    exact ⟨0, w, [], rfl, rfl, by simp, by simp⟩

/-- C2: when the first token is the name at some index of the builtin table,
`ush_execute` returns what the handler at that index returns on the full token
list; a builtin returns without any `fork`, child or `waitpid`.  A first token
that is not equal to a builtin name goes to `ush_launch`; "CD", "exi" and
"exit1" are such tokens. -/
theorem builtin_dispatch (os : OS) (w : World) (arg0 : List Nat) (rest : List (List Nat)) :
    (∀ i name func, builtin_str.get? i = some name → builtin_func.get? i = some func →
      arg0 = name → ush_execute os w (arg0 :: rest) = func os w (arg0 :: rest)) ∧
    (arg0 ∈ builtin_str →
      ∃ st w2 ev, ush_execute os w (arg0 :: rest) = .returned st w2 ∧
        w2.trace = w.trace ++ ev ∧ ∀ e ∈ ev, e.isLaunch = false) ∧
    (arg0 ∉ builtin_str → ush_execute os w (arg0 :: rest) = ush_launch os w (arg0 :: rest)) ∧
    bytes "CD" ∉ builtin_str ∧ bytes "exi" ∉ builtin_str ∧ bytes "exit1" ∉ builtin_str := by
  refine ⟨?_, ?_, execute_external os w arg0 rest, by decide, by decide, by decide⟩
  · intro i name func hn hf h
    subst h
    match i, hn, hf with
    | 0, hn, hf =>
      simp only [builtin_str, builtin_func, List.get?_cons_zero, Option.some.injEq] at hn hf
      subst hn hf
      exact execute_cd os w rest
    | 1, hn, hf =>
      simp only [builtin_str, builtin_func, List.get?_cons_succ, List.get?_cons_zero,
        Option.some.injEq] at hn hf
      subst hn hf
      exact execute_help os w rest
    | 2, hn, hf =>
      simp only [builtin_str, builtin_func, List.get?_cons_succ, List.get?_cons_zero,
        Option.some.injEq] at hn hf
      subst hn hf
      exact execute_exit os w rest
    | n + 3, hn, _ => simp [builtin_str] at hn
  · intro h
    obtain ⟨st, w2, ev, h1, _, h2, h3⟩ := builtin_returns os w arg0 rest h
    exact ⟨st, w2, ev, h1, h2, h3⟩

theorem builtin_dispatch_witness :
    bytes "exit" ∈ builtin_str ∧
    ((∀ i name func, builtin_str.get? i = some name → builtin_func.get? i = some func →
      bytes "exit" = name →
      ush_execute os_ok (world_of []) [bytes "exit", bytes "now"] =
        func os_ok (world_of []) [bytes "exit", bytes "now"]) ∧
    (bytes "exit" ∈ builtin_str →
      ∃ st w2 ev, ush_execute os_ok (world_of []) [bytes "exit", bytes "now"] = .returned st w2 ∧
        w2.trace = (world_of []).trace ++ ev ∧ ∀ e ∈ ev, e.isLaunch = false) ∧
    (bytes "exit" ∉ builtin_str →
      ush_execute os_ok (world_of []) [bytes "exit", bytes "now"] =
        ush_launch os_ok (world_of []) [bytes "exit", bytes "now"]) ∧
    bytes "CD" ∉ builtin_str ∧ bytes "exi" ∉ builtin_str ∧ bytes "exit1" ∉ builtin_str) :=
  ⟨by decide, builtin_dispatch os_ok (world_of []) (bytes "exit") [bytes "now"]⟩

/-! ## The launcher -/

theorem wait_loop_returns (w : World) (stops : List WaitStatus) (st : WaitStatus)
    (tail : List WaitStatus) (hstops : ∀ s ∈ stops, s.terminated = false)
    (hst : st.terminated = true) :
    wait_loop w (stops ++ st :: tail) =
      .returned 1 ⟨w.stdin, w.cwd, w.trace ++ (stops.map .waitpid ++ [.waitpid st])⟩ := by
  induction stops generalizing w with
  | nil =>
    cases st with
    | stopped sig => simp [WaitStatus.terminated] at hst
    | exited code => simp [wait_loop, World.emit]
    | signaled sig => simp [wait_loop, World.emit]
  | cons s stops ih =>
    simp only [List.mem_cons, forall_eq_or_imp] at hstops
    cases s with
    | stopped sig =>
      have hstep : wait_loop w (.stopped sig :: (stops ++ st :: tail)) =
          wait_loop (w.emit (.waitpid (.stopped sig))) (stops ++ st :: tail) := rfl
      rw [List.cons_append, hstep, ih _ hstops.2]
      simp [World.emit]
    | exited code => simp [WaitStatus.terminated] at hstops
    | signaled sig => simp [WaitStatus.terminated] at hstops

theorem wait_loop_terminates (w : World) (reports : List WaitStatus)
    (h : ∃ st ∈ reports, st.terminated = true) :
    ∃ ev, wait_loop w reports = .returned 1 ⟨w.stdin, w.cwd, w.trace ++ ev⟩ := by
  induction reports generalizing w with
  | nil => simp at h
  | cons s reports ih =>
    cases s with
    | stopped sig =>
      have h2 : ∃ st ∈ reports, st.terminated = true := by
        obtain ⟨st, hmem, hst⟩ := h
        rcases List.mem_cons.mp hmem with rfl | hmem
        · simp [WaitStatus.terminated] at hst
        · exact ⟨st, hmem, hst⟩
      obtain ⟨ev, hev⟩ := ih (w.emit (.waitpid (.stopped sig))) h2
      refine ⟨.waitpid (.stopped sig) :: ev, ?_⟩
      simp only [wait_loop]
      rw [hev]
      simp [World.emit]
    | exited code => exact ⟨[.waitpid (.exited code)], by simp [wait_loop, World.emit]⟩
    | signaled sig => exact ⟨[.waitpid (.signaled sig)], by simp [wait_loop, World.emit]⟩

/-- C3: a non-empty token list whose first token is no builtin name goes to
`ush_launch`.  When `fork` fails no child exists and the result is `continue`
(1).  When `fork` succeeds exactly one child is requested, with the first
token as its program and the whole token list as its argument vector, and the
result is 1 once `waitpid` reports a status that is not `stopped`: after a
failed `execvp` (the child exits with `EXIT_FAILURE`), after any exit status
and after any signal. -/
theorem external_dispatch (os : OS) (w : World) (arg0 : List Nat) (rest : List (List Nat))
    (h : arg0 ∉ builtin_str) :
    ush_execute os w (arg0 :: rest) = ush_launch os w (arg0 :: rest) ∧
    (os.fork w = false →
      ush_launch os w (arg0 :: rest) =
        .returned 1 ⟨w.stdin, w.cwd, w.trace ++ [.forkFailed, .perror (bytes "ush")]⟩) ∧
    (os.fork w = true → os.execvp arg0 (arg0 :: rest) = none →
      ush_launch os w (arg0 :: rest) =
        .returned 1 ⟨w.stdin, w.cwd,
          w.trace ++ [.child arg0 (arg0 :: rest) false, .waitpid (.exited EXIT_FAILURE)]⟩) ∧
    (∀ stops st tail, os.fork w = true →
      os.execvp arg0 (arg0 :: rest) = some (stops ++ st :: tail) →
      (∀ s ∈ stops, s.terminated = false) → st.terminated = true →
      ush_launch os w (arg0 :: rest) =
        .returned 1 ⟨w.stdin, w.cwd,
          w.trace ++ .child arg0 (arg0 :: rest) true :: (stops.map .waitpid ++ [.waitpid st])⟩) := by
  refine ⟨execute_external os w arg0 rest h, ?_, ?_, ?_⟩
  · intro hf
    simp [ush_launch, hf, World.emit]
  · intro hf he
    simp [ush_launch, hf, he, wait_loop, World.emit]
  · intro stops st tail hf he hstops hst
    simp only [ush_launch, hf, he, if_true, wait_loop_returns _ stops st tail hstops hst]
    simp [World.emit]

theorem external_dispatch_witness :
    bytes "ls" ∉ builtin_str ∧
    (ush_execute os_ok (world_of []) [bytes "ls", bytes "-la"] =
      ush_launch os_ok (world_of []) [bytes "ls", bytes "-la"] ∧
    (os_ok.fork (world_of []) = false →
      ush_launch os_ok (world_of []) [bytes "ls", bytes "-la"] =
        .returned 1 ⟨(world_of []).stdin, (world_of []).cwd,
          (world_of []).trace ++ [.forkFailed, .perror (bytes "ush")]⟩) ∧
    (os_ok.fork (world_of []) = true → os_ok.execvp (bytes "ls") [bytes "ls", bytes "-la"] = none →
      ush_launch os_ok (world_of []) [bytes "ls", bytes "-la"] =
        .returned 1 ⟨(world_of []).stdin, (world_of []).cwd,
          (world_of []).trace ++
            [.child (bytes "ls") [bytes "ls", bytes "-la"] false,
             .waitpid (.exited EXIT_FAILURE)]⟩) ∧
    (∀ stops st tail, os_ok.fork (world_of []) = true →
      os_ok.execvp (bytes "ls") [bytes "ls", bytes "-la"] = some (stops ++ st :: tail) →
      (∀ s ∈ stops, s.terminated = false) → st.terminated = true →
      ush_launch os_ok (world_of []) [bytes "ls", bytes "-la"] =
        .returned 1 ⟨(world_of []).stdin, (world_of []).cwd,
          (world_of []).trace ++ .child (bytes "ls") [bytes "ls", bytes "-la"] true ::
            (stops.map .waitpid ++ [.waitpid st])⟩)) :=
  ⟨by decide, external_dispatch os_ok (world_of []) (bytes "ls") [bytes "-la"] (by decide)⟩

theorem launch_returns (os : OS) (hterm : os.programsEnd) (w : World) (arg0 : List Nat)
    (rest : List (List Nat)) :
    ∃ ev, ush_launch os w (arg0 :: rest) = .returned 1 ⟨w.stdin, w.cwd, w.trace ++ ev⟩ := by
  cases hf : os.fork w with
  | false => exact ⟨[.forkFailed, .perror (bytes "ush")], by simp [ush_launch, hf, World.emit]⟩
  | true =>
    cases he : os.execvp arg0 (arg0 :: rest) with
    | none =>
      exact ⟨[.child arg0 (arg0 :: rest) false, .waitpid (.exited EXIT_FAILURE)],
        by simp [ush_launch, hf, he, wait_loop, World.emit]⟩
    | some reports =>
      obtain ⟨ev, hev⟩ := wait_loop_terminates (w.emit (.child arg0 (arg0 :: rest) true)) reports
        (hterm _ _ _ he)
      refine ⟨.child arg0 (arg0 :: rest) true :: ev, ?_⟩
      simp only [ush_launch, hf, he, if_true]
      rw [hev]
      simp [World.emit]

/-- When launched programs end, `ush_execute` returns; the status is 0 for
`exit` and 1 for everything else, and standard input is left alone. -/
theorem execute_returns (os : OS) (hterm : os.programsEnd) (w : World) (args : List (List Nat)) :
    ∃ st w2, ush_execute os w args = .returned st w2 ∧ w2.stdin = w.stdin ∧
      (st = 0 ↔ args.head? = some (bytes "exit")) ∧ (st = 0 ∨ st = 1) ∧ (st = 0 → w2 = w) := by
  cases args with
  | nil => exact ⟨1, w, rfl, rfl, by simp, Or.inr rfl, by simp⟩
  | cons arg0 rest =>
    by_cases hb : arg0 ∈ builtin_str
    · rcases (mem_builtin_str arg0).mp hb with rfl | rfl | rfl
      · have hne : bytes "cd" ≠ bytes "exit" := by decide
        obtain ⟨st, w2, ev, h1, h2, _, _⟩ := builtin_returns os w (bytes "cd") rest hb
        have hst : st = 1 := by
          rw [execute_cd] at h1
          cases rest with
          | nil => simp [ush_cd] at h1; exact h1.1.symm
          | cons path more =>
            cases hch : os.chdir w.cwd path <;> simp [ush_cd, hch] at h1 <;> exact h1.1.symm
        subst hst
        exact ⟨1, w2, h1, h2, by simp [hne], Or.inr rfl, by simp⟩
      · have hne : bytes "help" ≠ bytes "exit" := by decide
        exact ⟨1, ⟨w.stdin, w.cwd, w.trace ++ help_output⟩, by rw [execute_help, ush_help_eq],
          rfl, by simp [hne], Or.inr rfl, by simp⟩
      · exact ⟨0, w, by rw [execute_exit]; rfl, rfl, by simp, Or.inl rfl, fun _ => rfl⟩
    · have hne : arg0 ≠ bytes "exit" := fun h => hb (by simp [h, builtin_str])
      obtain ⟨ev, hev⟩ := launch_returns os hterm w arg0 rest
      exact ⟨1, ⟨w.stdin, w.cwd, w.trace ++ ev⟩,
        by rw [execute_external os w arg0 rest hb, hev], rfl, by simp [hne], Or.inr rfl, by simp⟩

/-- C4: when launched programs end, `ush_execute` returns for every token
list, and the status it returns is `terminate` (0) if and only if the list is
non-empty with first token exactly "exit"; every other status is `continue`
(1), and a call that returns 0 leaves the world as it was, whatever follows
`exit`. -/
theorem exit_iff_status_zero (os : OS) (w : World) (args : List (List Nat))
    (hterm : os.programsEnd) :
    ∃ st w2, ush_execute os w args = .returned st w2 ∧
      (st = 0 ↔ args.head? = some (bytes "exit")) ∧ (st = 0 ∨ st = 1) ∧ (st = 0 → w2 = w) := by
  obtain ⟨st, w2, h1, _, h3, h4, h5⟩ := execute_returns os hterm w args
  exact ⟨st, w2, h1, h3, h4, h5⟩

theorem os_ok_programsEnd : os_ok.programsEnd := by
  intro file argv reports h
  simp only [os_ok, Option.some.injEq] at h
  subst h
  exact ⟨.exited 0, by simp, rfl⟩

theorem exit_iff_status_zero_witness :
    os_ok.programsEnd ∧
    ∃ st w2, ush_execute os_ok (world_of []) [bytes "exit", bytes "3"] = .returned st w2 ∧
      (st = 0 ↔ [bytes "exit", bytes "3"].head? = some (bytes "exit")) ∧ (st = 0 ∨ st = 1) ∧
      (st = 0 → w2 = world_of []) :=
  ⟨os_ok_programsEnd,
    exit_iff_status_zero os_ok (world_of []) [bytes "exit", bytes "3"] os_ok_programsEnd⟩

/-- C6: `ush_cd` returns `continue` (1).  Without an argument it calls no
`chdir`, keeps the working directory and writes the usage message to standard
error.  When the OS rejects the change to the first argument it keeps the
working directory and reports the OS error with `perror`.  When the OS
accepts the change the working directory becomes what the OS says.  The
arguments after the first do not matter. -/
theorem cd_behaviour (os : OS) (w : World) (arg0 : List Nat) :
    ush_cd os w [arg0] =
      .returned 1 ⟨w.stdin, w.cwd,
        w.trace ++ [.stderr (bytes "ush: expected argument to \"cd\"\n")]⟩ ∧
    (∀ path more, os.chdir w.cwd path = none →
      ush_cd os w (arg0 :: path :: more) =
        .returned 1 ⟨w.stdin, w.cwd, w.trace ++ [.chdir path false, .perror (bytes "ush")]⟩) ∧
    (∀ path more dir, os.chdir w.cwd path = some dir →
      ush_cd os w (arg0 :: path :: more) =
        .returned 1 ⟨w.stdin, dir, w.trace ++ [.chdir path true]⟩) ∧
    (∀ path more, ush_cd os w (arg0 :: path :: more) = ush_cd os w [arg0, path]) ∧
    (∀ rest, ∃ w2, ush_cd os w (arg0 :: rest) = .returned 1 w2 ∧
      (w2.cwd ≠ w.cwd → ∃ path more, rest = path :: more ∧ os.chdir w.cwd path = some w2.cwd)) ∧
    (∀ rest, ush_execute os w (bytes "cd" :: rest) = ush_cd os w (bytes "cd" :: rest)) := by
  refine ⟨by simp [ush_cd, World.emit], ?_, ?_, ?_, ?_, execute_cd os w⟩
  · intro path more h
    simp [ush_cd, h, World.emit]
  · intro path more dir h
    simp [ush_cd, h, World.emit]
  · intro path more
    simp only [ush_cd]
  · intro rest
    cases rest with
    | nil => exact ⟨_, rfl, fun h => absurd rfl h⟩
    | cons path more =>
      cases hch : os.chdir w.cwd path with
      | none =>
        exact ⟨(w.emit (.chdir path false)).emit (.perror (bytes "ush")),
          by simp only [ush_cd, hch], fun h => absurd rfl h⟩
      | some dir =>
        exact ⟨{ w with cwd := dir }.emit (.chdir path true), by simp only [ush_cd, hch],
          fun _ => ⟨path, more, rfl, hch⟩⟩

theorem cd_behaviour_witness :
    os_ok.chdir (world_of []).cwd (bytes "/tmp") = some (bytes "/tmp") ∧
    (ush_cd os_ok (world_of []) [bytes "cd"] =
      .returned 1 ⟨(world_of []).stdin, (world_of []).cwd,
        (world_of []).trace ++ [.stderr (bytes "ush: expected argument to \"cd\"\n")]⟩ ∧
    (∀ path more, os_ok.chdir (world_of []).cwd path = none →
      ush_cd os_ok (world_of []) (bytes "cd" :: path :: more) =
        .returned 1 ⟨(world_of []).stdin, (world_of []).cwd,
          (world_of []).trace ++ [.chdir path false, .perror (bytes "ush")]⟩) ∧
    (∀ path more dir, os_ok.chdir (world_of []).cwd path = some dir →
      ush_cd os_ok (world_of []) (bytes "cd" :: path :: more) =
        .returned 1 ⟨(world_of []).stdin, dir, (world_of []).trace ++ [.chdir path true]⟩) ∧
    (∀ path more, ush_cd os_ok (world_of []) (bytes "cd" :: path :: more) =
      ush_cd os_ok (world_of []) [bytes "cd", path]) ∧
    (∀ rest, ∃ w2, ush_cd os_ok (world_of []) (bytes "cd" :: rest) = .returned 1 w2 ∧
      (w2.cwd ≠ (world_of []).cwd →
        ∃ path more, rest = path :: more ∧ os_ok.chdir (world_of []).cwd path = some w2.cwd)) ∧
    (∀ rest, ush_execute os_ok (world_of []) (bytes "cd" :: rest) =
      ush_cd os_ok (world_of []) (bytes "cd" :: rest))) :=
  ⟨rfl, cd_behaviour os_ok (world_of []) (bytes "cd")⟩

/-! ## `ush_read_line`: what is returned -/

theorem ush_read_line_eq (os : OS) (w : World)
    (hm : os.alloc (USH_RL_BUFSIZE * SIZEOF_CHAR) = true) :
    ush_read_line os w = rl_loop os w w.stdin (rl_init (List.replicate USH_RL_BUFSIZE none)) := by
  simp [ush_read_line, malloc, hm]

/-- With every allocation granted and the line short enough for the `int`
counters, `ush_read_line` stores the characters before the first newline and
a NUL after them, and takes the line and its newline off the input. -/
theorem read_line_returns (os : OS) (hos : ∀ n, os.alloc n = true) (w : World)
    (line rest : List Nat) (hin : w.stdin = line ++ 10 :: rest) (hnl : 10 ∉ line)
    (hb : line.length + USH_RL_BUFSIZE ≤ INT_MAX) :
    ∃ block, ush_read_line os w = .returned block { w with stdin := rest } ∧
      block.take (line.length + 1) = line.map some ++ [some 0] ∧
      cstr block = some (line.takeWhile (fun c => c != 0)) := by
  have hinit : RlInv (rl_init (List.replicate USH_RL_BUFSIZE none)) := rl_init_inv _ (by simp)
  obtain ⟨s, hr, hi, hp, ht⟩ := rl_reach_some os hos line hnl _ hinit (by simpa [rl_init] using hb)
  simp only [rl_init, List.take_zero, List.nil_append, Nat.zero_add] at ht hp
  have hlt := rl_inv_lt hi
  have hlen := hi.len
  have hset := set_eq_take_cons_drop s.buffer s.position (some 0) (by omega)
  rw [ht] at hset
  refine ⟨s.buffer.set s.position (some 0), ?_, ?_, ?_⟩
  · rw [ush_read_line_eq os w (hos _), hin, rl_loop_append os w line (10 :: rest) _ s hr,
      rl_loop_newline os w rest s hi]
  · rw [← hp, take_set_succ s.buffer s.position (some 0) (by omega), ht]
  · rw [hset, cstr_map_some]

/-- The character after 2147482623 stored ones makes
`bufsize += USH_RL_BUFSIZE` leave the `int` range. -/
theorem read_line_overflow (os : OS) (hos : ∀ n, os.alloc n = true) (w : World)
    (cs rest : List Nat) (c : Nat) (hin : w.stdin = cs ++ c :: rest)
    (hlen : cs.length = 2147482623) (hnl : 10 ∉ cs) (hc : c ≠ 10) :
    ush_read_line os w = .fault := by
  obtain ⟨s, hr, hi, hp, _⟩ := rl_reach_some os hos cs hnl
    (rl_init (List.replicate USH_RL_BUFSIZE none)) (rl_init_inv _ (by simp))
    (by simp only [rl_init, USH_RL_BUFSIZE, INT_MAX, hlen]; omega)
  have hcap := hi.cap
  have hl := hi.len
  simp only [rl_init, Nat.zero_add, hlen] at hp
  simp only [USH_RL_BUFSIZE, hp] at hcap
  have hbody : rl_body os (some c) s = .fault := by
    have hst := store_eq_some s.buffer s.position c (by omega)
    simp only [rl_body, hst, USH_RL_BUFSIZE, INT_MAX]
    rw [if_neg hc, if_neg (by omega), if_pos (by omega), if_pos (by omega)]
  rw [ush_read_line_eq os w (hos _), hin, rl_loop_append os w cs (c :: rest) _ s hr]
  simp only [rl_loop, hbody]

theorem replicate_no_newline (n : Nat) : 10 ∉ List.replicate n 97 :=
  fun h => absurd (List.eq_of_mem_replicate h) (by decide)

/-- C7, as amended: when the pending input holds a newline, no NUL comes
before the first newline, that line is short enough for the `int` counters and
every allocation is granted, `ush_read_line` returns a block that holds
exactly the characters before the first newline, in order, then the string
terminator; the string it denotes is that line, it holds neither the newline
nor a NUL, and the input left is what follows that newline. -/
theorem read_line_returns_line (os : OS) (w : World) (line rest : List Nat)
    (hos : ∀ n, os.alloc n = true) (hin : w.stdin = line ++ 10 :: rest) (hnl : 10 ∉ line)
    (h0 : 0 ∉ line) (hb : line.length + USH_RL_BUFSIZE ≤ INT_MAX) :
    ∃ block str, ush_read_line os w = .returned block { w with stdin := rest } ∧
      block.take (line.length + 1) = line.map some ++ [some 0] ∧
      cstr block = some str ∧ str = line ∧ 10 ∉ str ∧ 0 ∉ str := by
  obtain ⟨block, h1, h2, h3⟩ := read_line_returns os hos w line rest hin hnl hb
  rw [takeWhile_ne_zero line h0] at h3
  exact ⟨block, line, h1, h2, h3, rfl, hnl, h0⟩

theorem read_line_returns_line_witness :
    (∀ n, os_ok.alloc n = true) ∧
    (world_of (bytes "ls -la\nexit\n")).stdin = bytes "ls -la" ++ 10 :: bytes "exit\n" ∧
    10 ∉ bytes "ls -la" ∧ 0 ∉ bytes "ls -la" ∧
    (bytes "ls -la").length + USH_RL_BUFSIZE ≤ INT_MAX ∧
    ∃ block str, ush_read_line os_ok (world_of (bytes "ls -la\nexit\n")) =
        .returned block { world_of (bytes "ls -la\nexit\n") with stdin := bytes "exit\n" } ∧
      block.take ((bytes "ls -la").length + 1) = (bytes "ls -la").map some ++ [some 0] ∧
      cstr block = some str ∧ str = bytes "ls -la" ∧ 10 ∉ str ∧ 0 ∉ str :=
  ⟨fun _ => rfl, by decide, by decide, by decide, by decide,
    read_line_returns_line os_ok (world_of (bytes "ls -la\nexit\n")) (bytes "ls -la")
      (bytes "exit\n") (fun _ => rfl) (by decide) (by decide) (by decide) (by decide)⟩

/-- C7 fails as stated.  On the input "a", NUL, "b", newline the characters
before the first newline are 97, 0, 98: the block holds them, NUL included,
and the string returned is "a" alone.  On a line of 2147482624 characters the
capacity leaves the `int` range before the newline is read, and no line is
returned. -/
theorem read_line_counterexample :
    (∃ block w2, ush_read_line os_ok (world_of [97, 0, 98, 10]) = .returned block w2 ∧
      block.take 4 = [some 97, some 0, some 98, some 0] ∧ cstr block = some [97]) ∧
    (¬ ∃ block w2, ush_read_line os_ok (world_of [97, 0, 98, 10]) = .returned block w2 ∧
      cstr block = some [97, 0, 98]) ∧
    ush_read_line os_ok (world_of (List.replicate 2147482624 97 ++ [10])) = .fault := by
  obtain ⟨block, h1, h2, h3⟩ := read_line_returns os_ok (fun _ => rfl) (world_of [97, 0, 98, 10])
    [97, 0, 98] [] rfl (by decide) (by decide)
  have h4 : cstr block = some [97] := by rw [h3]; decide
  refine ⟨⟨block, _, h1, h2, h4⟩, ?_, ?_⟩
  · rintro ⟨block2, w2, h5, h6⟩
    rw [h1] at h5
    simp only [Outcome.returned.injEq] at h5
    rw [← h5.1, h4] at h6
    simp at h6
  · have hsplit : List.replicate 2147482624 97 ++ [10] =
        List.replicate 2147482623 97 ++ 97 :: [10] := by
      rw [show (2147482624 : Nat) = 2147482623 + 1 from rfl, List.replicate_succ']
      rw [List.append_assoc]
      rfl
    exact read_line_overflow os_ok (fun _ => rfl) _ (List.replicate 2147482623 97) [10] 97
      hsplit (List.length_replicate _ _) (replicate_no_newline _) (by decide)

/-! ## End of input -/

theorem read_line_eof (os : OS) (w : World) (buffer : List (Option Nat)) (s : RlState)
    (hm : malloc os USH_RL_BUFSIZE SIZEOF_CHAR = some buffer)
    (hr : rl_reach os w.stdin (rl_init buffer) = some s) :
    ush_read_line os w = .exited EXIT_SUCCESS { w with stdin := [] } := by
  have h := rl_loop_append os w w.stdin [] _ s hr
  rw [List.append_nil] at h
  simp only [ush_read_line, hm, h, rl_loop_eof]

theorem loop_turns_exited (os : OS) (w w2 : World) (code fuel : Nat)
    (h : loop_body os w = .exited code w2) : loop_turns os (fuel + 1) w = .exited code w2 := by
  simp [loop_turns, h, Outcome.bind]

theorem loop_eof (os : OS) (w : World) (buffer : List (Option Nat)) (s : RlState)
    (hm : malloc os USH_RL_BUFSIZE SIZEOF_CHAR = some buffer)
    (hr : rl_reach os w.stdin (rl_init buffer) = some s) :
    loop_body os w = .exited EXIT_SUCCESS ⟨[], w.cwd, w.trace ++ [.stdout (bytes "--> ")]⟩ ∧
    ush_loop os w = .exited EXIT_SUCCESS ⟨[], w.cwd, w.trace ++ [.stdout (bytes "--> ")]⟩ ∧
    main os w = .exited EXIT_SUCCESS ⟨[], w.cwd, w.trace ++ [.stdout (bytes "--> ")]⟩ := by
  have h1 : loop_body os w =
      .exited EXIT_SUCCESS ⟨[], w.cwd, w.trace ++ [.stdout (bytes "--> ")]⟩ := by
    have := read_line_eof os (w.emit (.stdout (bytes "--> "))) buffer s hm hr
    simp only [loop_body, this, Outcome.bind]
    rfl
  have h2 := loop_turns_exited os w _ EXIT_SUCCESS w.stdin.length h1
  refine ⟨h1, h2, ?_⟩
  simp only [main, ush_loop, h2, Outcome.bind]

/-- C9: when the loop of `ush_read_line` has stored every pending character
and is still running, so that the next `getchar` returns `EOF`, the process
exits with `EXIT_SUCCESS` and no line is returned.  That is the case whenever
the pending input has no newline, is short enough for the `int` counters and
every allocation is granted, be the input empty or a partial line.  The turn
of `ush_loop` then only wrote the prompt: the partial line is neither
tokenized nor dispatched, and `main` ends with status 0. -/
theorem eof_exits_success (os : OS) (w : World) :
    (∀ buffer s, malloc os USH_RL_BUFSIZE SIZEOF_CHAR = some buffer →
      rl_reach os w.stdin (rl_init buffer) = some s →
      ush_read_line os w = .exited EXIT_SUCCESS { w with stdin := [] } ∧
      ush_loop os w = .exited EXIT_SUCCESS ⟨[], w.cwd, w.trace ++ [.stdout (bytes "--> ")]⟩ ∧
      main os w = .exited EXIT_SUCCESS ⟨[], w.cwd, w.trace ++ [.stdout (bytes "--> ")]⟩) ∧
    ((∀ n, os.alloc n = true) → 10 ∉ w.stdin → w.stdin.length + USH_RL_BUFSIZE ≤ INT_MAX →
      ush_read_line os w = .exited EXIT_SUCCESS { w with stdin := [] } ∧
      ush_loop os w = .exited EXIT_SUCCESS ⟨[], w.cwd, w.trace ++ [.stdout (bytes "--> ")]⟩ ∧
      main os w = .exited EXIT_SUCCESS ⟨[], w.cwd, w.trace ++ [.stdout (bytes "--> ")]⟩) := by
  constructor
  · intro buffer s hm hr
    exact ⟨read_line_eof os w buffer s hm hr, (loop_eof os w buffer s hm hr).2⟩
  · intro hos hnl hb
    have hinit : RlInv (rl_init (List.replicate USH_RL_BUFSIZE none)) := rl_init_inv _ (by simp)
    obtain ⟨s, hr, _⟩ := rl_reach_some os hos w.stdin hnl _ hinit (by simpa [rl_init] using hb)
    have hm : malloc os USH_RL_BUFSIZE SIZEOF_CHAR =
        some (List.replicate USH_RL_BUFSIZE (none : Option Nat)) := by
      simp [malloc, hos]
    exact ⟨read_line_eof os w _ s hm hr, (loop_eof os w _ s hm hr).2⟩

theorem eof_exits_success_witness :
    (∀ n, os_ok.alloc n = true) ∧ 10 ∉ (world_of (bytes "exi")).stdin ∧
    (world_of (bytes "exi")).stdin.length + USH_RL_BUFSIZE ≤ INT_MAX ∧
    ush_read_line os_ok (world_of (bytes "exi")) =
      .exited EXIT_SUCCESS { world_of (bytes "exi") with stdin := [] } ∧
    ush_loop os_ok (world_of (bytes "exi")) =
      .exited EXIT_SUCCESS ⟨[], (world_of (bytes "exi")).cwd,
        (world_of (bytes "exi")).trace ++ [.stdout (bytes "--> ")]⟩ ∧
    main os_ok (world_of (bytes "exi")) =
      .exited EXIT_SUCCESS ⟨[], (world_of (bytes "exi")).cwd,
        (world_of (bytes "exi")).trace ++ [.stdout (bytes "--> ")]⟩ :=
  ⟨fun _ => rfl, by decide, by decide,
    (eof_exits_success os_ok (world_of (bytes "exi"))).2 (fun _ => rfl) (by decide) (by decide)⟩

/-! ## Writes stay inside the blocks -/

theorem rl_body_no_fault (os : OS) (c : Option Nat) (s : RlState) (hs : RlInv s)
    (hb : s.position + 1 + USH_RL_BUFSIZE ≤ INT_MAX) : rl_body os c s ≠ .fault := by
  have hlt := rl_inv_lt hs
  have hcap := hs.cap
  have hlen := hs.len
  simp only [USH_RL_BUFSIZE, INT_MAX] at hb hcap
  cases c with
  | none => simp [rl_body]
  | some c =>
    by_cases hc : c = 10
    · simp [rl_body, hc, store_eq_some s.buffer s.position 0 (by omega)]
    · have h1 : ¬ INT_MAX ≤ s.position := by simp only [INT_MAX]; omega
      by_cases h2 : s.bufsize ≤ s.position + 1
      · have h3 : ¬ INT_MAX < s.bufsize + USH_RL_BUFSIZE := by
          simp only [INT_MAX, USH_RL_BUFSIZE]; omega
        cases hre : realloc os (s.buffer.set s.position (some c))
            (s.bufsize + USH_RL_BUFSIZE) SIZEOF_CHAR <;>
          simp [rl_body, hc, store_eq_some s.buffer s.position c (by omega), h1, h2, h3, hre]
      · simp [rl_body, hc, store_eq_some s.buffer s.position c (by omega), h1, h2]

theorem rl_loop_no_fault (os : OS) (w : World) (cs : List Nat) (s : RlState) (hs : RlInv s)
    (hb : s.position + cs.length + USH_RL_BUFSIZE ≤ INT_MAX) : rl_loop os w cs s ≠ .fault := by
  induction cs generalizing s with
  | nil => simp [rl_loop_eof]
  | cons c cs ih =>
    simp only [List.length_cons] at hb
    have hnf := rl_body_no_fault os (some c) s hs (by omega)
    cases hbody : rl_body os (some c) s with
    | next s2 =>
      obtain ⟨hi, hp⟩ := rl_body_inv os (some c) s s2 hs hbody
      simp only [rl_loop, hbody]
      exact ih s2 hi (by omega)
    | done b => simp [rl_loop, hbody]
    | quit code ev => simp [rl_loop, hbody]
    | fault => exact absurd hbody hnf

theorem sl_body_no_fault (os : OS) (token : List Nat) (s : SlState) (hs : SlInv s)
    (hb : s.position + 1 + USH_TOK_BUFSIZE ≤ INT_MAX) : sl_body os token s ≠ .fault := by
  have hlt := sl_inv_lt hs
  have hcap := hs.cap
  have hlen := hs.len
  simp only [USH_TOK_BUFSIZE, INT_MAX] at hb hcap
  have h1 : ¬ INT_MAX ≤ s.position := by simp only [INT_MAX]; omega
  by_cases h2 : s.bufsize ≤ s.position + 1
  · have h3 : ¬ INT_MAX < s.bufsize + USH_TOK_BUFSIZE := by
      simp only [INT_MAX, USH_TOK_BUFSIZE]; omega
    cases hre : realloc os (s.tokens.set s.position (some (some token)))
        (s.bufsize + USH_TOK_BUFSIZE) SIZEOF_PTR <;>
      simp [sl_body, store_eq_some s.tokens s.position (some token) (by omega), h1, h2, h3, hre]
  · simp [sl_body, store_eq_some s.tokens s.position (some token) (by omega), h1, h2]

theorem sl_body_not_done (os : OS) (token : List Nat) (s : SlState) (b : Unit) :
    sl_body os token s ≠ .done b := by
  unfold sl_body
  split
  · simp
  · split
    · simp
    · simp only
      split
      · split
        · simp
        · split <;> simp
      · simp

theorem sl_loop_no_fault (os : OS) (w : World) (toks : List (List Nat)) (s : SlState)
    (hs : SlInv s) (hb : s.position + toks.length + USH_TOK_BUFSIZE ≤ INT_MAX) :
    sl_loop os w toks s ≠ .fault := by
  induction toks generalizing s with
  | nil =>
    have hlt := sl_inv_lt hs
    have hlen := hs.len
    simp [sl_loop, store_eq_some s.tokens s.position none (by omega)]
  | cons c cs ih =>
    simp only [List.length_cons] at hb
    have hnf := sl_body_no_fault os c s hs (by omega)
    cases hbody : sl_body os c s with
    | next s2 =>
      obtain ⟨hi, hp⟩ := sl_body_inv os c s s2 hs hbody
      simp only [sl_loop, hbody]
      exact ih s2 hi (by omega)
    | done b => exact absurd hbody (sl_body_not_done os c s b)
    | quit code ev => simp [sl_loop, hbody]
    | fault => exact absurd hbody hnf

theorem ush_read_line_no_fault (os : OS) (w : World)
    (hb : w.stdin.length + USH_RL_BUFSIZE ≤ INT_MAX) : ush_read_line os w ≠ .fault := by
  cases hm : os.alloc (USH_RL_BUFSIZE * SIZEOF_CHAR) with
  | false => simp [ush_read_line, malloc, hm]
  | true =>
    rw [ush_read_line_eq os w hm]
    exact rl_loop_no_fault os w w.stdin _ (rl_init_inv _ (by simp)) (by simpa [rl_init] using hb)

theorem ush_split_line_no_fault (os : OS) (w : World) (line : List Nat)
    (hb : line.length + USH_TOK_BUFSIZE ≤ INT_MAX) : ush_split_line os w line ≠ .fault := by
  cases hm : os.alloc (USH_TOK_BUFSIZE * SIZEOF_PTR) with
  | false => simp [ush_split_line, malloc, hm]
  | true =>
    have h1 : (line.takeWhile (fun c => c != 0)).length ≤ line.length :=
      (List.takeWhile_sublist _).length_le
    have h2 := runs_length_le _ _
      (runs_strtok_all ((line.takeWhile (fun c => c != 0)).length + 1)
        (line.takeWhile (fun c => c != 0)) (by omega))
    simp only [ush_split_line, malloc, hm, if_true]
    exact sl_loop_no_fault os w _ _ (sl_init_inv _ (by simp)) (by simp only [sl_init]; omega)

/-- C10: at the top of the loop of `ush_read_line` (of `ush_split_line`),
after any number of characters (tokens) stored, the capacity is
`1024 * (position / 1024 + 1)` (`64 * (position / 64 + 1)`), it is the length
of the block, and the write index `position` is below it, so the next write,
be it a character, the string terminator, a token or the final null pointer,
is inside the block.  When the pending input (the line) is short enough for
the `int` counters neither function has undefined behaviour, and with every
allocation granted the loops do reach those states. -/
theorem buffer_writes_in_bounds :
    (∀ (os : OS) (cs : List Nat) (s : RlState),
      rl_reach os cs (rl_init (List.replicate USH_RL_BUFSIZE none)) = some s →
      s.position = cs.length ∧
      s.bufsize = USH_RL_BUFSIZE * (s.position / USH_RL_BUFSIZE + 1) ∧
      s.buffer.length = s.bufsize ∧ s.position < s.buffer.length ∧
      ∀ v, store s.buffer s.position v = some (s.buffer.set s.position (some v))) ∧
    (∀ (os : OS) (toks : List (List Nat)) (s : SlState),
      sl_reach os toks (sl_init (List.replicate USH_TOK_BUFSIZE none)) = some s →
      s.position = toks.length ∧
      s.bufsize = USH_TOK_BUFSIZE * (s.position / USH_TOK_BUFSIZE + 1) ∧
      s.tokens.length = s.bufsize ∧ s.position < s.tokens.length ∧
      ∀ v, store s.tokens s.position v = some (s.tokens.set s.position (some v))) ∧
    (∀ (os : OS) (w : World), w.stdin.length + USH_RL_BUFSIZE ≤ INT_MAX →
      ush_read_line os w ≠ .fault) ∧
    (∀ (os : OS) (w : World) (line : List Nat), line.length + USH_TOK_BUFSIZE ≤ INT_MAX →
      ush_split_line os w line ≠ .fault) ∧
    (∀ (os : OS) (cs : List Nat), (∀ n, os.alloc n = true) → 10 ∉ cs →
      cs.length + USH_RL_BUFSIZE ≤ INT_MAX →
      ∃ s, rl_reach os cs (rl_init (List.replicate USH_RL_BUFSIZE none)) = some s) ∧
    (∀ (os : OS) (toks : List (List Nat)), (∀ n, os.alloc n = true) →
      toks.length + USH_TOK_BUFSIZE ≤ INT_MAX →
      ∃ s, sl_reach os toks (sl_init (List.replicate USH_TOK_BUFSIZE none)) = some s) := by
  refine ⟨?_, ?_, ush_read_line_no_fault, ush_split_line_no_fault, ?_, ?_⟩
  · intro os cs s h
    obtain ⟨hi, hp⟩ := rl_reach_inv os cs _ s (rl_init_inv _ (by simp)) h
    have hlt := rl_inv_lt hi
    have hlen := hi.len
    refine ⟨by simpa [rl_init] using hp, hi.cap, hlen, by omega, fun v => ?_⟩
    exact store_eq_some _ _ _ (by omega)
  · intro os toks s h
    obtain ⟨hi, hp⟩ := sl_reach_inv os toks _ s (sl_init_inv _ (by simp)) h
    have hlt := sl_inv_lt hi
    have hlen := hi.len
    refine ⟨by simpa [sl_init] using hp, hi.cap, hlen, by omega, fun v => ?_⟩
    exact store_eq_some _ _ _ (by omega)
  · intro os cs hos hnl hb
    obtain ⟨s, hr, _⟩ := rl_reach_some os hos cs hnl _
      (rl_init_inv (List.replicate USH_RL_BUFSIZE none) (by simp)) (by simp only [rl_init]; omega)
    exact ⟨s, hr⟩
  · intro os toks hos hb
    obtain ⟨s, hr, _⟩ := sl_reach_some os hos toks _
      (sl_init_inv (List.replicate USH_TOK_BUFSIZE none) (by simp)) (by simp only [sl_init]; omega)
    exact ⟨s, hr⟩

theorem buffer_writes_in_bounds_witness :
    ∃ s, rl_reach os_ok (bytes "ls") (rl_init (List.replicate USH_RL_BUFSIZE none)) = some s ∧
      s.position = (bytes "ls").length ∧
      s.bufsize = USH_RL_BUFSIZE * (s.position / USH_RL_BUFSIZE + 1) ∧
      s.buffer.length = s.bufsize ∧ s.position < s.buffer.length ∧
      ∀ v, store s.buffer s.position v = some (s.buffer.set s.position (some v)) :=
  (buffer_writes_in_bounds.2.2.2.2.1 os_ok (bytes "ls") (fun _ => rfl) (by decide)
    (by decide)).elim fun s hs => ⟨s, hs, buffer_writes_in_bounds.1 os_ok (bytes "ls") s hs⟩

/-! ## The main loop -/

theorem takeWhile_ne_zero_mem (l : List Nat) : 0 ∉ l.takeWhile (fun c => c != 0) := by
  intro h
  have := List.mem_takeWhile_imp h
  simp at this

/-- One turn of the loop on a line: the prompt, the line and its newline off
the input, and `ush_execute` on the maximal runs of the string read. -/
theorem loop_body_line (os : OS) (hos : ∀ n, os.alloc n = true) (w : World)
    (line rest : List Nat) (toks : List (List Nat)) (hin : w.stdin = line ++ 10 :: rest)
    (hnl : 10 ∉ line) (hb : line.length + USH_RL_BUFSIZE ≤ INT_MAX)
    (hruns : MaximalRuns (line.takeWhile (fun c => c != 0)) toks) :
    loop_body os w = ush_execute os ⟨rest, w.cwd, w.trace ++ [prompt]⟩ toks := by
  obtain ⟨block, h1, _, h3⟩ := read_line_returns os hos (w.emit prompt) line rest hin hnl hb
  have hlen : (line.takeWhile (fun c => c != 0)).length ≤ line.length :=
    (List.takeWhile_sublist _).length_le
  have htl := runs_length_le _ _ hruns
  have htoks := strtok_all_of_runs _ _ hruns ((line.takeWhile (fun c => c != 0)).length + 1)
    (by omega)
  simp only [USH_RL_BUFSIZE] at hb
  obtain ⟨block2, h4, h5, _⟩ := sl_loop_returns os hos
    ({ w.emit prompt with stdin := rest }) toks (by simp only [USH_TOK_BUFSIZE]; omega)
  have hsplit : ush_split_line os ({ w.emit prompt with stdin := rest })
      (line.takeWhile (fun c => c != 0)) = .returned block2 ({ w.emit prompt with stdin := rest }) := by
    rw [ush_split_line_eq os hos, takeWhile_ne_zero _ (takeWhile_ne_zero_mem line), htoks]
    exact h4
  have hp : prompt = .stdout (bytes "--> ") := rfl
  simp only [loop_body, ← hp, h1, Outcome.bind, h3, hsplit, h5]
  rfl

theorem loop_turns_continue (os : OS) (w w2 : World) (st n : Nat)
    (h : loop_body os w = .returned st w2) (hst : st ≠ 0) :
    loop_turns os (n + 1) w = loop_turns os n w2 := by
  simp [loop_turns, h, Outcome.bind, hst]

theorem loop_turns_stop (os : OS) (w w2 : World) (n : Nat)
    (h : loop_body os w = .returned 0 w2) :
    loop_turns os (n + 1) w = .returned () w2 := by
  simp [loop_turns, h, Outcome.bind]

/-- The end-to-end example of the specification: on "help", newline, "exit",
newline the process prints the banner and each builtin name once between two
prompts, reads both lines and ends with status 0. -/
theorem help_then_exit :
    main os_ok (world_of (bytes "help\nexit\n")) =
      .exited EXIT_SUCCESS ⟨[], bytes "/", prompt :: help_output ++ [prompt]⟩ := by
  have hos : ∀ n, os_ok.alloc n = true := fun _ => rfl
  have hr1 : MaximalRuns ((bytes "help").takeWhile (fun c => c != 0)) [bytes "help"] :=
    runs_strtok_all 5 (bytes "help") (by decide)
  have hr2 : MaximalRuns ((bytes "exit").takeWhile (fun c => c != 0)) [bytes "exit"] :=
    runs_strtok_all 5 (bytes "exit") (by decide)
  have hb1 := loop_body_line os_ok hos (world_of (bytes "help\nexit\n")) (bytes "help")
    (bytes "exit\n") _ rfl (by decide) (by decide) hr1
  have hb2 := loop_body_line os_ok hos ⟨bytes "exit\n", bytes "/", prompt :: help_output⟩
    (bytes "exit") [] _ rfl (by decide) (by decide) hr2
  rw [execute_help, ush_help_eq] at hb1
  rw [execute_exit] at hb2
  have hfuel : (world_of (bytes "help\nexit\n")).stdin.length + 1 = 9 + 1 + 1 := by decide
  have hl : ush_loop os_ok (world_of (bytes "help\nexit\n")) =
      .returned () ⟨[], bytes "/", prompt :: help_output ++ [prompt]⟩ := by
    unfold ush_loop
    rw [hfuel, loop_turns_continue os_ok _ _ 1 _ hb1 (by decide)]
    exact loop_turns_stop os_ok _ _ _ hb2
  simp only [main, hl, Outcome.bind]

theorem rl_loop_stdin (os : OS) (w w2 : World) (cs : List Nat) (s : RlState)
    (b : List (Option Nat)) (h : rl_loop os w cs s = .returned b w2) :
    w2.stdin.length < cs.length := by
  induction cs generalizing s with
  | nil => simp [rl_loop_eof] at h
  | cons c cs ih =>
    cases hbody : rl_body os (some c) s with
    | next s2 =>
      simp only [rl_loop, hbody] at h
      have := ih s2 h
      simp only [List.length_cons]
      omega
    | done b2 =>
      simp only [rl_loop, hbody, Outcome.returned.injEq] at h
      rw [← h.2]
      simp
    | quit code ev => simp [rl_loop, hbody] at h
    | fault => simp [rl_loop, hbody] at h

theorem read_line_stdin (os : OS) (w w2 : World) (b : List (Option Nat))
    (h : ush_read_line os w = .returned b w2) : w2.stdin.length < w.stdin.length := by
  unfold ush_read_line at h
  split at h
  · simp at h
  · exact rl_loop_stdin os w w2 w.stdin _ b h

theorem sl_loop_world (os : OS) (w w2 : World) (toks : List (List Nat)) (s : SlState)
    (b : List (Option (Option (List Nat)))) (h : sl_loop os w toks s = .returned b w2) :
    w2 = w := by
  induction toks generalizing s with
  | nil =>
    unfold sl_loop at h
    split at h
    · simp at h
    · simp only [Outcome.returned.injEq] at h
      exact h.2.symm
  | cons c cs ih =>
    cases hbody : sl_body os c s with
    | next s2 =>
      simp only [sl_loop, hbody] at h
      exact ih s2 h
    | done b2 => simp [sl_loop, hbody] at h
    | quit code ev => simp [sl_loop, hbody] at h
    | fault => simp [sl_loop, hbody] at h

theorem split_line_world (os : OS) (w w2 : World) (line : List Nat)
    (b : List (Option (Option (List Nat)))) (h : ush_split_line os w line = .returned b w2) :
    w2 = w := by
  unfold ush_split_line at h
  split at h
  · simp at h
  · exact sl_loop_world os w w2 _ _ b h

theorem wait_loop_stdin (w w2 : World) (reports : List WaitStatus) (st : Nat)
    (h : wait_loop w reports = .returned st w2) : w2.stdin = w.stdin := by
  induction reports generalizing w with
  | nil => simp [wait_loop] at h
  | cons r rs ih =>
    cases r with
    | stopped sig =>
      simp only [wait_loop] at h
      have := ih _ h
      simpa [World.emit] using this
    | exited code =>
      simp only [wait_loop, Outcome.returned.injEq] at h
      rw [← h.2]; rfl
    | signaled sig =>
      simp only [wait_loop, Outcome.returned.injEq] at h
      rw [← h.2]; rfl

theorem launch_stdin (os : OS) (w w2 : World) (args : List (List Nat)) (st : Nat)
    (h : ush_launch os w args = .returned st w2) : w2.stdin = w.stdin := by
  cases args with
  | nil => simp [ush_launch] at h
  | cons arg0 rest =>
    cases hf : os.fork w with
    | false =>
      simp only [ush_launch, hf, Outcome.returned.injEq] at h
      simp at h
      rw [← h.2]; rfl
    | true =>
      cases he : os.execvp arg0 (arg0 :: rest) with
      | none =>
        simp only [ush_launch, hf, he, if_true] at h
        have := wait_loop_stdin _ _ _ _ h
        simpa [World.emit] using this
      | some reports =>
        simp only [ush_launch, hf, he, if_true] at h
        have := wait_loop_stdin _ _ _ _ h
        simpa [World.emit] using this

theorem execute_stdin (os : OS) (w w2 : World) (args : List (List Nat)) (st : Nat)
    (h : ush_execute os w args = .returned st w2) : w2.stdin = w.stdin := by
  cases args with
  | nil =>
    simp only [ush_execute, Outcome.returned.injEq] at h
    rw [← h.2]
  | cons arg0 rest =>
    by_cases hb : arg0 ∈ builtin_str
    · obtain ⟨st2, w3, ev, h1, h2, _⟩ := builtin_returns os w arg0 rest hb
      rw [h1] at h
      simp only [Outcome.returned.injEq] at h
      rw [← h.2, h2]
    · rw [execute_external os w arg0 rest hb] at h
      exact launch_stdin os w w2 _ st h

theorem loop_body_stdin (os : OS) (w w2 : World) (st : Nat)
    (h : loop_body os w = .returned st w2) : w2.stdin.length < w.stdin.length := by
  unfold loop_body at h
  cases hr : ush_read_line os (w.emit (.stdout (bytes "--> "))) with
  | returned line w1 =>
    have h1 := read_line_stdin os _ w1 line hr
    simp only [hr, Outcome.bind] at h
    cases hc : cstr line with
    | none => simp [hc] at h
    | some str =>
      simp only [hc] at h
      cases hs : ush_split_line os w1 str with
      | returned tokens w3 =>
        have h2 := split_line_world os w1 w3 str tokens hs
        subst h2
        simp only [hs] at h
        cases ha : argv tokens with
        | none => simp [ha] at h
        | some args =>
          simp only [ha] at h
          have h3 := execute_stdin os _ w2 args st h
          rw [h3]
          exact h1
      | exited code w3 => simp [hs] at h
      | fault => simp [hs] at h
      | hangs => simp [hs] at h
  | exited code w1 => simp [hr, Outcome.bind] at h
  | fault => simp [hr, Outcome.bind] at h
  | hangs => simp [hr, Outcome.bind] at h

/-- Any number of turns above the number of pending characters gives the same
outcome: the loop never stops for lack of turns. -/
theorem loop_turns_fuel (os : OS) (fuel1 : Nat) :
    ∀ (fuel2 : Nat) (w : World), w.stdin.length < fuel1 → w.stdin.length < fuel2 →
      loop_turns os fuel1 w = loop_turns os fuel2 w := by
  induction fuel1 with
  | zero => intro fuel2 w h; omega
  | succ a ih =>
    intro fuel2 w h1 h2
    obtain ⟨b, rfl⟩ : ∃ b, fuel2 = b + 1 := ⟨fuel2 - 1, by omega⟩
    cases hb : loop_body os w with
    | returned st w2 =>
      have hlt := loop_body_stdin os w w2 st hb
      by_cases hst : st = 0
      · simp [loop_turns, hb, Outcome.bind, hst]
      · simp only [loop_turns, hb, Outcome.bind, hst, ne_eq, not_false_eq_true, if_true]
        exact ih b w2 (by omega) (by omega)
    | exited code w2 => simp [loop_turns, hb, Outcome.bind]
    | fault => simp [loop_turns, hb, Outcome.bind]
    | hangs => simp [loop_turns, hb, Outcome.bind]

theorem ush_loop_fuel (os : OS) (w : World) (fuel : Nat) (h : w.stdin.length < fuel) :
    loop_turns os fuel w = ush_loop os w :=
  loop_turns_fuel os fuel (w.stdin.length + 1) w h (by omega)

/-- Any number of `strtok` calls above the length of the string yields the
same tokens: the scan never stops for lack of calls. -/
theorem strtok_all_fuel (s : List Nat) (fuel : Nat) (h : s.length < fuel) :
    strtok_all USH_TOK_DELIM fuel s = strtok_all USH_TOK_DELIM (s.length + 1) s :=
  strtok_all_of_runs s _ (runs_strtok_all (s.length + 1) s (by omega)) fuel h

/-! ## Refused allocations -/

/-- A refused first allocation ends the process with `EXIT_FAILURE` after the
diagnostic on standard error, in the reader and in the tokenizer alike. -/
theorem allocation_failure_is_fatal (os : OS) (w : World) (line : List Nat) :
    (os.alloc (USH_RL_BUFSIZE * SIZEOF_CHAR) = false →
      ush_read_line os w = .exited EXIT_FAILURE (w.emit (.stderr allocation_error))) ∧
    (os.alloc (USH_TOK_BUFSIZE * SIZEOF_PTR) = false →
      ush_split_line os w line = .exited EXIT_FAILURE (w.emit (.stderr allocation_error))) := by
  constructor
  · intro h
    simp [ush_read_line, malloc, h]
  · intro h
    simp [ush_split_line, malloc, h]

end Ush
